import Mathlib

/- Shallow embedding of the wave-function-collapse solver in src/main.rs.
   Modelling conventions: Rust HashMaps become association lists whose list
   order stands for the map's iteration order; Vec<String> becomes
   List String; isize becomes Int (the arithmetic the program performs stays
   far from the isize bounds); panics (unwrap or index on a missing key, the
   explicit panic calls in collapse) become Option/Except failures; the
   values drawn from thread_rng by shuffle become an explicitly injected
   stream (List Nat) threaded through the search.  The print method only
   sleeps and writes to the terminal, so it is omitted. -/

/-- Direction label "right" as it appears in the rule tables. -/
def dRight : String := "right"

/-- Direction label "left" as it appears in the rule tables. -/
def dLeft : String := "left"

/-- Direction label "above" as it appears in the rule tables. -/
def dAbove : String := "above"

/-- Direction label "below" as it appears in the rule tables. -/
def dBelow : String := "below"

/-- One tile prototype: display glyph and per-direction-label allowed
neighbour identifiers (struct BoardCharacter in src/main.rs). -/
structure BoardCharacter where
  character : String
  valid_neighbors : List (String × List String)
deriving DecidableEq

/-- type AdjacencyMap = HashMap<String, BoardCharacter>. -/
abbrev AdjacencyMap := List (String × BoardCharacter)

/-- type Vec2 = [isize; 2]. -/
abbrev Vec2 := Int × Int

/-- type Domain = Vec<String>. -/
abbrev Domain := List String

/-- enum Tile: a cell is collapsed to one identifier or holds a domain. -/
inductive Tile where
  | Collapsed (v : String)
  | Uncollapsed (d : Domain)
deriving DecidableEq

/-- type Board = HashMap<Vec2, Tile>; list order models iteration order. -/
abbrev Board := List (Vec2 × Tile)

/-- HashMap::get on a string-keyed map (first entry with the key). -/
def assocFind {β : Type} (m : List (String × β)) (k : String) : Option β :=
  (m.find? fun e => decide (e.1 = k)).map fun e => e.2

/-- The double lookup prototype_map[name].valid_neighbors[lbl]; none models
the panic a missing key raises. -/
def ruleDir (r : AdjacencyMap) (name lbl : String) : Option (List String) :=
  match assocFind r name with
  | none => none
  | some bc => assocFind bc.valid_neighbors lbl

/-- HashMap::get on the board. -/
def bGet (b : Board) (p : Vec2) : Option Tile :=
  (b.find? fun e => decide (e.1 = p)).map fun e => e.2

/-- In-place mutation through get_mut: replace the tile stored at p. -/
def bSet (b : Board) (p : Vec2) (t : Tile) : Board :=
  b.map fun e => if e.1 = p then (p, t) else e

/-- HashMap::remove. -/
def bRemove (b : Board) (p : Vec2) : Board :=
  b.filter fun e => ! decide (e.1 = p)

/-- HashMap::insert of a key that is not present (appends in iteration
order; the solver always removes the key first). -/
def bInsert (b : Board) (p : Vec2) (t : Tile) : Board :=
  b ++ [(p, t)]

/-- The remove-then-insert idiom the solver uses to replace a cell. -/
def reinsert (b : Board) (p : Vec2) (t : Tile) : Board :=
  bInsert (bRemove b p) p t

/-- Tile::default_domain: every tile identifier of the rule table, in
iteration order. -/
def default_domain (r : AdjacencyMap) : Tile :=
  Tile.Uncollapsed (r.map fun e => e.1)

/-- Tile::domain_from. -/
def domain_from (v : String) : Tile :=
  Tile.Uncollapsed [v]

/-- Board::create: every position of the square grid starts uncollapsed
with the full domain; insertion (hence iteration) order is row-major. -/
def create (r : AdjacencyMap) (n : Nat) : Board :=
  (List.range n).flatMap fun row =>
    (List.range n).map fun col => (((row : Int), (col : Int)), default_domain r)

/-- domain.len() <= lowest_len, where none models the usize::MAX sentinel
(a value no actual Vec length reaches). -/
def leLow (n : Nat) : Option Nat → Bool
  | none => true
  | some m => decide (n ≤ m)

/-- The scan loop of get_lowest_entropy, with its running lowest length and
index accumulator. -/
def gle_fold : List (Vec2 × Tile) → Option Nat → Vec2 → Vec2
  | [], _, idx => idx
  | e :: rest, low, idx =>
    match e.2 with
    | Tile.Collapsed _ => gle_fold rest low idx
    | Tile.Uncollapsed d =>
      if leLow d.length low then gle_fold rest (some d.length) e.1
      else gle_fold rest low idx

/-- Board::get_lowest_entropy. -/
def get_lowest_entropy (b : Board) : Vec2 :=
  gle_fold b none (0, 0)

/-- Tile tag test: true on Uncollapsed. -/
def isUncolT : Tile → Bool
  | Tile.Collapsed _ => false
  | Tile.Uncollapsed _ => true

/-- Board::is_collapsed. -/
def is_collapsed (b : Board) : Bool :=
  b.all fun e => ! isUncolT e.2

/-- The retain predicate of propagate_collapse: keep a domain element e iff
prototype_map[e].valid_neighbors[lbl] contains val (none = panic on a
missing key). -/
def keepF (r : AdjacencyMap) (val lbl : String) (e : String) : Option Bool :=
  match ruleDir r e lbl with
  | none => none
  | some lst => some (decide (val ∈ lst))

/-- Vec::retain with the removal log: returns (kept, removed) in order, or
none if the predicate panics. -/
def retainM (keep : String → Option Bool) : List String → Option (List String × List String)
  | [] => some ([], [])
  | x :: xs =>
    match keep x with
    | none => none
    | some k =>
      match retainM keep xs with
      | none => none
      | some pr => if k then some (x :: pr.1, pr.2) else some (pr.1, x :: pr.2)

/-- One neighbour block of propagate_collapse: if the cell at np is
uncollapsed, retain the elements compatible with val under lbl and record
the removals tagged with np. -/
def propStep (r : AdjacencyMap) (val lbl : String) (np : Vec2) (b : Board) :
    Option (Board × List (Vec2 × String)) :=
  match bGet b np with
  | some (Tile.Uncollapsed d) =>
    match retainM (keepF r val lbl) d with
    | none => none
    | some pr => some (bSet b np (Tile.Uncollapsed pr.1), pr.2.map fun e => (np, e))
  | _ => some (b, [])

/-- Board::propagate_collapse: filters the four neighbour domains of a
collapsed cell and returns the removal log; an uncollapsed cell yields an
empty log, a missing cell panics (self.get(pos).unwrap()). -/
def propagate_collapse (r : AdjacencyMap) (b : Board) (pos : Vec2) :
    Option (Board × List (Vec2 × String)) :=
  match bGet b pos with
  | none => none
  | some (Tile.Uncollapsed _) => some (b, [])
  | some (Tile.Collapsed val) =>
    (propStep r val dRight (pos.1 - 1, pos.2) b).bind fun pr1 =>
    (propStep r val dLeft (pos.1 + 1, pos.2) pr1.1).bind fun pr2 =>
    (propStep r val dAbove (pos.1, pos.2 - 1) pr2.1).bind fun pr3 =>
    (propStep r val dBelow (pos.1, pos.2 + 1) pr3.1).bind fun pr4 =>
    some (pr4.1, pr1.2 ++ pr2.2 ++ pr3.2 ++ pr4.2)

/-- One step of Board::restore_domains: re-add name to the domain at p; if
the cell there is collapsed, replace it by a fresh singleton domain; if the
position is absent, do nothing. -/
def restoreOne (b : Board) (p : Vec2) (name : String) : Board :=
  match bGet b p with
  | none => b
  | some (Tile.Uncollapsed d) => bSet b p (Tile.Uncollapsed (d ++ [name]))
  | some (Tile.Collapsed _) => reinsert b p (domain_from name)

/-- Board::restore_domains. -/
def restore_domains (b : Board) (tiles : List (Vec2 × String)) : Board :=
  tiles.foldl (fun bb e => restoreOne bb e.1 e.2) b

/-- One neighbour block of is_valid_placement: a collapsed neighbour at np
must list v under lbl; absent or uncollapsed neighbours impose nothing;
none models the unwrap/index panic on a missing rule entry. -/
def ivpStep (r : AdjacencyMap) (lbl : String) (np : Vec2) (b : Board) (v : String) :
    Option Bool :=
  match bGet b np with
  | some (Tile.Collapsed w) =>
    match ruleDir r w lbl with
    | none => none
    | some lst => some (decide (v ∈ lst))
  | _ => some true

/-- Board::is_valid_placement with its early return on the first
violation. -/
def is_valid_placement (r : AdjacencyMap) (b : Board) (v : String) (pos : Vec2) :
    Option Bool :=
  match ivpStep r dRight (pos.1 - 1, pos.2) b v with
  | none => none
  | some false => some false
  | some true =>
    match ivpStep r dLeft (pos.1 + 1, pos.2) b v with
    | none => none
    | some false => some false
    | some true =>
      match ivpStep r dAbove (pos.1, pos.2 - 1) b v with
      | none => none
      | some false => some false
      | some true =>
        match ivpStep r dBelow (pos.1, pos.2 + 1) b v with
        | none => none
        | some false => some false
        | some true => some true

/-- Modelled from the spec: the rand crate's SliceRandom::shuffle is an
external collaborator producing a uniformly random permutation; here the
randomness is the injected stream, and each step selects the element at
index (next stream value mod remaining length), consuming one value. -/
def pickGo {α : Type} : Nat → List Nat → List α → List α × List Nat
  | 0, s, _ => ([], s)
  | Nat.succ _, s, [] => ([], s)
  | Nat.succ n, s, x :: rest =>
    let i := s.headD 0 % (x :: rest).length
    let out := pickGo n s.tail ((x :: rest).eraseIdx i)
    ((x :: rest).getD i x :: out.1, out.2)

/-- possible_tiles.shuffle(&mut thread_rng()), with the stream injected;
returns the permuted list and the remaining stream. -/
def selShuffle {α : Type} (s : List Nat) (xs : List α) : List α × List Nat :=
  pickGo xs.length s xs

/-- Failure modes of the embedded collapse: a Rust panic, or exhaustion of
the recursion fuel. -/
inductive CErr where
  | panicked
  | noFuel
deriving DecidableEq

/-- The candidate loop of Board::collapse: try each shuffled candidate at
pos; on an inner failure restore the removal log and reinstate the saved
domain, then continue. recCall is the recursive collapse invocation. -/
def tryCands (r : AdjacencyMap) (pos : Vec2)
    (recCall : Board → List Nat → Except CErr (Board × Bool × List Nat)) :
    List String → Board → List Nat → Except CErr (Board × Bool × List Nat)
  | [], b, s => Except.ok (b, false, s)
  | t :: ts, b, s =>
    match is_valid_placement r b t pos with
    | none => Except.error CErr.panicked
    | some false => tryCands r pos recCall ts b s
    | some true =>
      match bGet b pos with
      | some (Tile.Uncollapsed saved) =>
        match propagate_collapse r (reinsert b pos (Tile.Collapsed t)) pos with
        | none => Except.error CErr.panicked
        | some prm =>
          match recCall prm.1 s with
          | Except.error e => Except.error e
          | Except.ok (b3, true, s2) => Except.ok (b3, true, s2)
          | Except.ok (b3, false, s2) =>
            tryCands r pos recCall ts
              (reinsert (restore_domains b3 prm.2) pos (Tile.Uncollapsed saved)) s2
      | _ => Except.error CErr.panicked

/-- Board::collapse with fuel bounding the recursion depth: if the board is
fully collapsed succeed, otherwise shuffle the domain of the lowest-entropy
cell and run the candidate loop. -/
def collapseF : Nat → AdjacencyMap → Board → List Nat → Except CErr (Board × Bool × List Nat)
  | 0, _, _, _ => Except.error CErr.noFuel
  | Nat.succ f, r, b, s =>
    if is_collapsed b then Except.ok (b, true, s)
    else
      let pos := get_lowest_entropy b
      match bGet b pos with
      | some (Tile.Uncollapsed d) =>
        let pr := selShuffle s d
        tryCands r pos (fun b2 s2 => collapseF f r b2 s2) pr.1 b pr.2
      | _ => Except.error CErr.panicked

/-- find? on a cons, phrased for board lookups. -/
theorem bGet_cons (e : Vec2 × Tile) (b : Board) (p : Vec2) :
    bGet (e :: b) p = if e.1 = p then some e.2 else bGet b p := by
  by_cases h : e.1 = p
  · simp [bGet, List.find?_cons_of_pos, h]
  · simp [bGet, List.find?_cons_of_neg, h]

/-- bSet keeps absent keys absent and overwrites the stored tile. -/
theorem bGet_bSet_self (b : Board) (p : Vec2) (t : Tile) :
    bGet (bSet b p t) p = (bGet b p).map fun _ => t := by
  induction b with
  | nil => rfl
  | cons e b ih =>
    by_cases h : e.1 = p
    · simp [bSet, bGet_cons, h]
    · simpa [bSet, bGet_cons, h] using ih

/-- bSet does not touch other keys. -/
theorem bGet_bSet_ne (b : Board) (p : Vec2) (t : Tile) (q : Vec2) (h : q ≠ p) :
    bGet (bSet b p t) q = bGet b q := by
  induction b with
  | nil => rfl
  | cons e b ih =>
    simp only [bSet, List.map_cons]
    rw [bGet_cons, bGet_cons]
    by_cases he : e.1 = p
    · rw [if_pos he]
      have h1 : ¬((p, t).1 = q) := fun hh => h hh.symm
      have h2 : ¬(e.1 = q) := fun hh => h (by rw [← hh, he])
      rw [if_neg h1, if_neg h2]
      exact ih
    · rw [if_neg he]
      by_cases hq : e.1 = q
      · rw [if_pos hq, if_pos hq]
      · rw [if_neg hq, if_neg hq]
        exact ih

/-- bRemove erases exactly the entries of the removed key. -/
theorem bGet_bRemove (b : Board) (p q : Vec2) :
    bGet (bRemove b p) q = if q = p then none else bGet b q := by
  induction b with
  | nil => simp [bRemove, bGet]
  | cons e b ih =>
    simp only [bRemove] at ih ⊢
    rw [List.filter_cons]
    by_cases he : e.1 = p
    · rw [show (!decide (e.1 = p)) = false by simp [he]]
      rw [if_neg (by simp), ih, bGet_cons]
      by_cases hq : q = p
      · simp [hq]
      · simp [hq, show ¬ e.1 = q from fun hh => hq (by rw [← hh, he])]
    · have hcond : (!decide (e.1 = p)) = true := by simp [he]
      rw [if_pos hcond, bGet_cons, bGet_cons, ih]
      by_cases hq : q = p
      · by_cases hq2 : e.1 = q
        · exact absurd (by rw [hq2, hq]) he
        · simp [hq, hq2, he]
      · by_cases hq2 : e.1 = q
        · simp [hq, hq2]
        · simp [hq, hq2]

/-- Appending a fresh entry is only seen by keys not already present. -/
theorem bGet_bInsert (b : Board) (p : Vec2) (t : Tile) (q : Vec2) :
    bGet (bInsert b p t) q =
      match bGet b q with
      | some x => some x
      | none => if q = p then some t else none := by
  induction b with
  | nil =>
    by_cases h : q = p
    · simp [bInsert, bGet_cons, bGet, h]
    · simp [bInsert, bGet_cons, bGet, h, Ne.symm h]
  | cons e b ih =>
    simp only [bInsert, List.cons_append]
    rw [bGet_cons, bGet_cons]
    by_cases hq : e.1 = q
    · simp [hq]
    · simp only [if_neg hq]
      exact ih

/-- reinsert stores the new tile at the key. -/
theorem bGet_reinsert_self (b : Board) (p : Vec2) (t : Tile) :
    bGet (reinsert b p t) p = some t := by
  rw [reinsert, bGet_bInsert]
  simp [bGet_bRemove]

/-- reinsert leaves every other key unchanged. -/
theorem bGet_reinsert_ne (b : Board) (p : Vec2) (t : Tile) (q : Vec2) (h : q ≠ p) :
    bGet (reinsert b p t) q = bGet b q := by
  rw [reinsert, bGet_bInsert, bGet_bRemove]
  rw [if_neg h]
  match hq : bGet b q with
  | some x => simp
  | none => simp [h]

/-- Observational equality of optional tiles: same tag, same collapsed
value, domains equal up to permutation. -/
def TileEquiv : Option Tile → Option Tile → Prop
  | none, none => True
  | some (Tile.Collapsed v), some (Tile.Collapsed w) => v = w
  | some (Tile.Uncollapsed d), some (Tile.Uncollapsed d2) => List.Perm d d2
  | _, _ => False

/-- Two boards hold the same logical state. -/
def StateEquiv (b b2 : Board) : Prop :=
  ∀ q : Vec2, TileEquiv (bGet b q) (bGet b2 q)

/-- Like TileEquiv but comparing domains only as sets, the form the
specification's restoration guarantees use. -/
def TileMemEquiv : Option Tile → Option Tile → Prop
  | none, none => True
  | some (Tile.Collapsed v), some (Tile.Collapsed w) => v = w
  | some (Tile.Uncollapsed d), some (Tile.Uncollapsed d2) => ∀ x, x ∈ d ↔ x ∈ d2
  | _, _ => False

/-- Boards holding membership-equal logical state. -/
def StateMemEquiv (b b2 : Board) : Prop :=
  ∀ q : Vec2, TileMemEquiv (bGet b q) (bGet b2 q)

theorem tileEquiv_refl (o : Option Tile) : TileEquiv o o := by
  match o with
  | none => trivial
  | some (Tile.Collapsed v) => exact rfl
  | some (Tile.Uncollapsed d) => exact List.Perm.refl d

theorem tileEquiv_none_left {o : Option Tile} (h : TileEquiv none o) : o = none := by
  match o with
  | none => rfl
  | some (Tile.Collapsed v) => exact h.elim
  | some (Tile.Uncollapsed d) => exact h.elim

theorem tileEquiv_col_left {v : String} {o : Option Tile}
    (h : TileEquiv (some (Tile.Collapsed v)) o) : o = some (Tile.Collapsed v) := by
  match o with
  | none => exact h.elim
  | some (Tile.Collapsed w) => exact congrArg some (congrArg Tile.Collapsed (show v = w from h).symm)
  | some (Tile.Uncollapsed d) => exact h.elim

theorem tileEquiv_unc_left {d : Domain} {o : Option Tile}
    (h : TileEquiv (some (Tile.Uncollapsed d)) o) :
    ∃ d2, o = some (Tile.Uncollapsed d2) ∧ List.Perm d d2 := by
  match o with
  | none => exact h.elim
  | some (Tile.Collapsed w) => exact h.elim
  | some (Tile.Uncollapsed d2) => exact ⟨d2, rfl, h⟩

theorem tileEquiv_symm {o1 o2 : Option Tile} (h : TileEquiv o1 o2) : TileEquiv o1 o2 → TileEquiv o2 o1 := by
  intro _
  match o1, o2, h with
  | none, none, _ => trivial
  | none, some (Tile.Collapsed _), h => exact h.elim
  | none, some (Tile.Uncollapsed _), h => exact h.elim
  | some (Tile.Collapsed _), none, h => exact h.elim
  | some (Tile.Uncollapsed _), none, h => exact h.elim
  | some (Tile.Collapsed _), some (Tile.Collapsed _), h => exact h.symm
  | some (Tile.Collapsed _), some (Tile.Uncollapsed _), h => exact h.elim
  | some (Tile.Uncollapsed _), some (Tile.Collapsed _), h => exact h.elim
  | some (Tile.Uncollapsed _), some (Tile.Uncollapsed _), h => exact h.symm

theorem tileEquiv_trans {o1 o2 o3 : Option Tile}
    (h1 : TileEquiv o1 o2) (h2 : TileEquiv o2 o3) : TileEquiv o1 o3 := by
  match o1, h1 with
  | none, h1 =>
    rw [tileEquiv_none_left h1] at h2
    rw [tileEquiv_none_left h2]
    trivial
  | some (Tile.Collapsed v), h1 =>
    rw [tileEquiv_col_left h1] at h2
    rw [tileEquiv_col_left h2]
    exact rfl
  | some (Tile.Uncollapsed d), h1 =>
    obtain ⟨d2, rfl, hp⟩ := tileEquiv_unc_left h1
    obtain ⟨d3, rfl, hp2⟩ := tileEquiv_unc_left h2
    exact hp.trans hp2

theorem stateEquiv_refl (b : Board) : StateEquiv b b := fun _ => tileEquiv_refl _

theorem stateEquiv_symm {b b2 : Board} (h : StateEquiv b b2) : StateEquiv b2 b :=
  fun q => tileEquiv_symm (h q) (h q)

theorem stateEquiv_trans {b b2 b3 : Board} (h1 : StateEquiv b b2) (h2 : StateEquiv b2 b3) :
    StateEquiv b b3 :=
  fun q => tileEquiv_trans (h1 q) (h2 q)

theorem tileMemEquiv_of_tileEquiv {o1 o2 : Option Tile} (h : TileEquiv o1 o2) :
    TileMemEquiv o1 o2 := by
  match o1, h with
  | none, h =>
    rw [tileEquiv_none_left h]
    trivial
  | some (Tile.Collapsed v), h =>
    rw [tileEquiv_col_left h]
    exact rfl
  | some (Tile.Uncollapsed d), h =>
    obtain ⟨d2, rfl, hp⟩ := tileEquiv_unc_left h
    exact fun x => hp.mem_iff

theorem stateMemEquiv_of_stateEquiv {b b2 : Board} (h : StateEquiv b b2) :
    StateMemEquiv b b2 :=
  fun q => tileMemEquiv_of_tileEquiv (h q)

/-- Setting equivalent tiles at the same key preserves board equivalence. -/
theorem bSet_equiv {b b2 : Board} (h : StateEquiv b b2) (p : Vec2) {t t2 : Tile}
    (ht : TileEquiv (some t) (some t2)) : StateEquiv (bSet b p t) (bSet b2 p t2) := by
  intro q
  by_cases hq : q = p
  · subst hq
    rw [bGet_bSet_self, bGet_bSet_self]
    have hp := h q
    match hb : bGet b q, hb2 : bGet b2 q with
    | none, none => exact trivial
    | some x, some y => exact ht
    | none, some y =>
      rw [hb, hb2] at hp
      exact absurd (tileEquiv_none_left hp) (by simp)
    | some x, none =>
      rw [hb, hb2] at hp
      match x, hp with
      | Tile.Collapsed v, hp => exact absurd (tileEquiv_col_left hp) (by simp)
      | Tile.Uncollapsed d, hp =>
        obtain ⟨d2, he, _⟩ := tileEquiv_unc_left hp
        exact absurd he (by simp)
  · rw [bGet_bSet_ne _ _ _ _ hq, bGet_bSet_ne _ _ _ _ hq]
    exact h q

/-- Reinserting equivalent tiles at the same key preserves equivalence. -/
theorem reinsert_equiv {b b2 : Board} (h : StateEquiv b b2) (p : Vec2) {t t2 : Tile}
    (ht : TileEquiv (some t) (some t2)) : StateEquiv (reinsert b p t) (reinsert b2 p t2) := by
  intro q
  by_cases hq : q = p
  · subst hq
    rw [bGet_reinsert_self, bGet_reinsert_self]
    exact ht
  · rw [bGet_reinsert_ne _ _ _ _ hq, bGet_reinsert_ne _ _ _ _ hq]
    exact h q

/-- One restoration step preserves board equivalence. -/
theorem restoreOne_equiv {b b2 : Board} (h : StateEquiv b b2) (p : Vec2) (n : String) :
    StateEquiv (restoreOne b p n) (restoreOne b2 p n) := by
  have hp := h p
  match hb : bGet b p, hb2 : bGet b2 p with
  | none, none =>
    rw [restoreOne, restoreOne, hb, hb2]
    exact h
  | some (Tile.Uncollapsed d), o2 =>
    rw [hb, hb2] at hp
    obtain ⟨d2, he, hperm⟩ := tileEquiv_unc_left hp
    rw [restoreOne, restoreOne, hb, hb2, he]
    exact bSet_equiv h p (hperm.append_right [n])
  | some (Tile.Collapsed v), o2 =>
    rw [hb, hb2] at hp
    have he := tileEquiv_col_left hp
    rw [restoreOne, restoreOne, hb, hb2, he]
    exact reinsert_equiv h p (tileEquiv_refl (some (domain_from n)))
  | none, some t =>
    rw [hb, hb2] at hp
    exact absurd (tileEquiv_none_left hp) (by simp)

/-- restore_domains preserves board equivalence. -/
theorem restore_domains_equiv {b b2 : Board} (h : StateEquiv b b2)
    (tiles : List (Vec2 × String)) :
    StateEquiv (restore_domains b tiles) (restore_domains b2 tiles) := by
  induction tiles generalizing b b2 with
  | nil => exact h
  | cons e ts ih =>
    rw [restore_domains, List.foldl_cons, restore_domains, List.foldl_cons]
    exact ih (restoreOne_equiv h e.1 e.2)

/-- restore_domains leaves positions outside the log untouched. -/
theorem restoreOne_frame {b : Board} {p q : Vec2} (n : String) (h : q ≠ p) :
    bGet (restoreOne b p n) q = bGet b q := by
  rw [restoreOne]
  match hb : bGet b p with
  | none => rfl
  | some (Tile.Uncollapsed d) => exact bGet_bSet_ne _ _ _ _ h
  | some (Tile.Collapsed v) => exact bGet_reinsert_ne _ _ _ _ h

theorem restore_domains_frame {b : Board} {tiles : List (Vec2 × String)} {q : Vec2}
    (h : ∀ e ∈ tiles, q ≠ e.1) :
    bGet (restore_domains b tiles) q = bGet b q := by
  induction tiles generalizing b with
  | nil => rfl
  | cons e ts ih =>
    rw [restore_domains, List.foldl_cons]
    rw [show List.foldl (fun bb e => restoreOne bb e.1 e.2) (restoreOne b e.1 e.2) ts =
      restore_domains (restoreOne b e.1 e.2) ts from rfl]
    rw [ih fun x hx => h x (List.mem_cons_of_mem _ hx)]
    exact restoreOne_frame e.2 (h e (List.mem_cons_self _ _))

/-- retainM splits a domain into kept and removed parts: together they
permute the original, kept elements satisfy the predicate, removed ones
refute it. -/
theorem retainM_spec {keep : String → Option Bool} :
    ∀ {d ks rs : List String}, retainM keep d = some (ks, rs) →
      List.Perm (ks ++ rs) d ∧ (∀ x ∈ ks, keep x = some true) ∧ (∀ x ∈ rs, keep x = some false) := by
  intro d
  induction d with
  | nil =>
    intro ks rs h
    rw [retainM] at h
    simp at h
    obtain ⟨rfl, rfl⟩ := h
    exact ⟨List.Perm.refl _, by simp, by simp⟩
  | cons x xs ih =>
    intro ks rs h
    rw [retainM] at h
    match hk : keep x with
    | none =>
      rw [hk] at h
      exact absurd h (by simp)
    | some k =>
      rw [hk] at h
      match hr : retainM keep xs with
      | none =>
        rw [hr] at h
        exact absurd h (by simp)
      | some pr =>
        rw [hr] at h
        obtain ⟨hperm, hks, hrs⟩ := ih (show retainM keep xs = some (pr.1, pr.2) from by rw [hr])
        cases k with
        | true =>
          simp at h
          obtain ⟨h1, h2⟩ := h
          subst h1
          subst h2
          refine ⟨?_, ?_, hrs⟩
          · rw [List.cons_append]
            exact hperm.cons x
          · intro y hy
            rcases List.mem_cons.mp hy with hy | hy
            · rw [hy]; exact hk
            · exact hks y hy
        | false =>
          simp at h
          obtain ⟨h1, h2⟩ := h
          subst h1
          subst h2
          refine ⟨?_, hks, ?_⟩
          · exact List.perm_middle.trans (hperm.cons x)
          · intro y hy
            rcases List.mem_cons.mp hy with hy | hy
            · rw [hy]; exact hk
            · exact hrs y hy

/-- The pairwise distinctness facts about a cell and its four neighbours. -/
theorem nbr_facts (p : Vec2) :
    (((p.1 - 1, p.2) : Vec2) ≠ p) ∧ (((p.1 + 1, p.2) : Vec2) ≠ p) ∧
    (((p.1, p.2 - 1) : Vec2) ≠ p) ∧ (((p.1, p.2 + 1) : Vec2) ≠ p) ∧
    (((p.1 - 1, p.2) : Vec2) ≠ (p.1 + 1, p.2)) ∧ (((p.1 - 1, p.2) : Vec2) ≠ (p.1, p.2 - 1)) ∧
    (((p.1 - 1, p.2) : Vec2) ≠ (p.1, p.2 + 1)) ∧ (((p.1 + 1, p.2) : Vec2) ≠ (p.1, p.2 - 1)) ∧
    (((p.1 + 1, p.2) : Vec2) ≠ (p.1, p.2 + 1)) ∧ (((p.1, p.2 - 1) : Vec2) ≠ (p.1, p.2 + 1)) := by
  have hp : p = (p.1, p.2) := rfl
  refine ⟨?_, ?_, ?_, ?_, ?_, ?_, ?_, ?_, ?_, ?_⟩ <;>
    (rw [hp]; intro hcon; rw [Prod.mk.injEq] at hcon; omega)

/-- The observable effect of one propagation block. -/
def StepDesc (keep : String → Option Bool) (np : Vec2) (bIn bOut : Board)
    (m : List (Vec2 × String)) : Prop :=
  (∀ q, q ≠ np → bGet bOut q = bGet bIn q) ∧
  (∀ e ∈ m, e.1 = np) ∧
  ((bOut = bIn ∧ m = [] ∧ ∀ d, bGet bIn np ≠ some (Tile.Uncollapsed d)) ∨
   ∃ d ks rs, bGet bIn np = some (Tile.Uncollapsed d) ∧ List.Perm (ks ++ rs) d ∧
     (∀ x ∈ ks, keep x = some true) ∧ (∀ x ∈ rs, keep x = some false) ∧
     bGet bOut np = some (Tile.Uncollapsed ks) ∧ m = rs.map fun e => (np, e))

/-- propStep on an absent neighbour does nothing. -/
theorem propStep_absent {r : AdjacencyMap} {val lbl : String} {np : Vec2} {b : Board}
    (hb : bGet b np = none) : propStep r val lbl np b = some (b, []) := by
  rw [propStep, hb]

/-- propStep on a collapsed neighbour does nothing. -/
theorem propStep_col {r : AdjacencyMap} {val lbl : String} {np : Vec2} {b : Board} {w : String}
    (hb : bGet b np = some (Tile.Collapsed w)) : propStep r val lbl np b = some (b, []) := by
  rw [propStep, hb]

/-- propStep on an uncollapsed neighbour runs the logged retain. -/
theorem propStep_unc {r : AdjacencyMap} {val lbl : String} {np : Vec2} {b : Board} {d : Domain}
    (hb : bGet b np = some (Tile.Uncollapsed d)) :
    propStep r val lbl np b =
      match retainM (keepF r val lbl) d with
      | none => none
      | some pr => some (bSet b np (Tile.Uncollapsed pr.1), pr.2.map fun e => (np, e)) := by
  rw [propStep, hb]

/-- Every successful propStep satisfies its observable description. -/
theorem propStep_desc {r : AdjacencyMap} {val lbl : String} {np : Vec2} {b b2 : Board}
    {m : List (Vec2 × String)} (h : propStep r val lbl np b = some (b2, m)) :
    StepDesc (keepF r val lbl) np b b2 m := by
  match hb : bGet b np with
  | none =>
    rw [propStep_absent hb] at h
    simp at h
    obtain ⟨h1, h2⟩ := h
    subst h1
    subst h2
    exact ⟨fun q _ => rfl, by simp, Or.inl ⟨rfl, rfl, by simp [hb]⟩⟩
  | some (Tile.Collapsed w) =>
    rw [propStep_col hb] at h
    simp at h
    obtain ⟨h1, h2⟩ := h
    subst h1
    subst h2
    exact ⟨fun q _ => rfl, by simp, Or.inl ⟨rfl, rfl, by simp [hb]⟩⟩
  | some (Tile.Uncollapsed d) =>
    rw [propStep_unc hb] at h
    match hr : retainM (keepF r val lbl) d with
    | none =>
      rw [hr] at h
      exact absurd h (by simp)
    | some pr =>
      rw [hr] at h
      simp at h
      obtain ⟨h1, h2⟩ := h
      subst h1
      subst h2
      obtain ⟨hperm, hks, hrs⟩ :=
        retainM_spec (show retainM (keepF r val lbl) d = some (pr.1, pr.2) from by rw [hr])
      refine ⟨?_, ?_, Or.inr ⟨d, pr.1, pr.2, hb, hperm, hks, hrs, ?_, rfl⟩⟩
      · intro q hq
        exact bGet_bSet_ne _ _ _ _ hq
      · intro e he
        rcases List.mem_map.mp he with ⟨x, _, hx⟩
        rw [← hx]
      · rw [bGet_bSet_self, hb]
        rfl

/-- Restoring a run of removals at one uncollapsed position appends them to
its domain. -/
theorem restore_run_get {b : Board} {np : Vec2} {ks : List String} (rs : List String)
    (hb : bGet b np = some (Tile.Uncollapsed ks)) :
    ∀ q, bGet (restore_domains b (rs.map fun e => (np, e))) q =
      if q = np then some (Tile.Uncollapsed (ks ++ rs)) else bGet b q := by
  induction rs generalizing b ks with
  | nil =>
    intro q
    by_cases hq : q = np
    · subst hq
      rw [restore_domains]
      simp [hb]
    · simp [restore_domains, hq]
  | cons x rs ih =>
    intro q
    rw [List.map_cons, restore_domains, List.foldl_cons]
    have hOne : restoreOne b np x = bSet b np (Tile.Uncollapsed (ks ++ [x])) := by
      rw [restoreOne, hb]
    rw [show List.foldl (fun bb e => restoreOne bb e.1 e.2) (restoreOne b np x)
        (rs.map fun e => (np, e)) =
      restore_domains (restoreOne b np x) (rs.map fun e => (np, e)) from rfl]
    rw [hOne]
    have hb2 : bGet (bSet b np (Tile.Uncollapsed (ks ++ [x]))) np =
        some (Tile.Uncollapsed (ks ++ [x])) := by
      rw [bGet_bSet_self, hb]
      rfl
    rw [ih hb2 q]
    by_cases hq : q = np
    · subst hq
      rw [if_pos rfl, if_pos rfl, List.append_assoc]
      rfl
    · rw [if_neg hq, if_neg hq, bGet_bSet_ne _ _ _ _ hq]

/-- Restoring the log of one block on any board that agrees with the block's
output at the block position rebuilds a permutation of the block's input
domain there and touches nothing else. -/
theorem stepDesc_restore {keep : String → Option Bool} {np : Vec2} {bIn bOut : Board}
    {m : List (Vec2 × String)} (D : StepDesc keep np bIn bOut m) (bMid : Board)
    (hMid : bGet bMid np = bGet bOut np) :
    TileEquiv (bGet (restore_domains bMid m) np) (bGet bIn np) ∧
    (∀ q, q ≠ np → bGet (restore_domains bMid m) q = bGet bMid q) := by
  obtain ⟨hframe, hmem, hcase⟩ := D
  rcases hcase with ⟨rfl, rfl, _⟩ | ⟨d, ks, rs, hIn, hperm, _, _, hOut, rfl⟩
  · constructor
    · rw [restore_domains]
      simp only [List.foldl_nil]
      rw [hMid]
      exact tileEquiv_refl _
    · intro q _
      rfl
  · have hb : bGet bMid np = some (Tile.Uncollapsed ks) := by rw [hMid, hOut]
    constructor
    · rw [restore_run_get rs hb np, if_pos rfl, hIn]
      exact hperm
    · intro q hq
      rw [restore_run_get rs hb q, if_neg hq]

/-- Splitting a restoration log. -/
theorem restore_domains_append (b : Board) (xs ys : List (Vec2 × String)) :
    restore_domains b (xs ++ ys) = restore_domains (restore_domains b xs) ys := by
  rw [restore_domains, restore_domains, restore_domains, List.foldl_append]

/-- Decomposition of a successful propagation from a collapsed cell into its
four neighbour blocks. -/
theorem propagate_col_spec {r : AdjacencyMap} {b : Board} {pos : Vec2} {val : String}
    {b2 : Board} {mods : List (Vec2 × String)}
    (hb : bGet b pos = some (Tile.Collapsed val))
    (h : propagate_collapse r b pos = some (b2, mods)) :
    ∃ pr1 pr2 pr3 pr4 : Board × List (Vec2 × String),
      propStep r val dRight (pos.1 - 1, pos.2) b = some pr1 ∧
      propStep r val dLeft (pos.1 + 1, pos.2) pr1.1 = some pr2 ∧
      propStep r val dAbove (pos.1, pos.2 - 1) pr2.1 = some pr3 ∧
      propStep r val dBelow (pos.1, pos.2 + 1) pr3.1 = some pr4 ∧
      b2 = pr4.1 ∧ mods = pr1.2 ++ (pr2.2 ++ (pr3.2 ++ pr4.2)) := by
  rw [propagate_collapse, hb] at h
  rcases Option.bind_eq_some.mp h with ⟨pr1, h1, h⟩
  rcases Option.bind_eq_some.mp h with ⟨pr2, h2, h⟩
  rcases Option.bind_eq_some.mp h with ⟨pr3, h3, h⟩
  rcases Option.bind_eq_some.mp h with ⟨pr4, h4, h⟩
  simp at h
  exact ⟨pr1, pr2, pr3, pr4, h1, h2, h3, h4, h.1.symm, h.2.symm⟩

/-- Core roundtrip: restoring the log returned by a successful propagation
from a collapsed cell returns every cell to its pre-propagation logical
state. -/
theorem prop_restore_core {r : AdjacencyMap} {b : Board} {pos : Vec2} {val : String}
    {b2 : Board} {mods : List (Vec2 × String)}
    (hpos : bGet b pos = some (Tile.Collapsed val))
    (h : propagate_collapse r b pos = some (b2, mods)) :
    StateEquiv (restore_domains b2 mods) b := by
  obtain ⟨pr1, pr2, pr3, pr4, h1, h2, h3, h4, hb2, hmods⟩ := propagate_col_spec hpos h
  subst hb2
  subst hmods
  have D1 := propStep_desc h1
  have D2 := propStep_desc h2
  have D3 := propStep_desc h3
  have D4 := propStep_desc h4
  obtain ⟨hne1, hne2, hne3, hne4, h12, h13, h14, h23, h24, h34⟩ := nbr_facts pos
  rw [restore_domains_append, restore_domains_append, restore_domains_append]
  set n1 : Vec2 := (pos.1 - 1, pos.2) with hn1
  set n2 : Vec2 := (pos.1 + 1, pos.2) with hn2
  set n3 : Vec2 := (pos.1, pos.2 - 1) with hn3
  set n4 : Vec2 := (pos.1, pos.2 + 1) with hn4
  set F1 := restore_domains pr4.1 pr1.2 with hF1
  set F2 := restore_domains F1 pr2.2 with hF2
  set F3 := restore_domains F2 pr3.2 with hF3
  have hMid1 : bGet pr4.1 n1 = bGet pr1.1 n1 := by
    rw [D4.1 n1 h14, D3.1 n1 h13, D2.1 n1 h12]
  have E1 := stepDesc_restore D1 pr4.1 hMid1
  have hMid2 : bGet F1 n2 = bGet pr2.1 n2 := by
    rw [E1.2 n2 (Ne.symm h12), D4.1 n2 h24, D3.1 n2 h23]
  have E2 := stepDesc_restore D2 F1 hMid2
  have hMid3 : bGet F2 n3 = bGet pr3.1 n3 := by
    rw [E2.2 n3 (Ne.symm h23), E1.2 n3 (Ne.symm h13), D4.1 n3 h34]
  have E3 := stepDesc_restore D3 F2 hMid3
  have hMid4 : bGet F3 n4 = bGet pr4.1 n4 := by
    rw [E3.2 n4 (Ne.symm h34), E2.2 n4 (Ne.symm h24), E1.2 n4 (Ne.symm h14)]
  have E4 := stepDesc_restore D4 F3 hMid4
  intro q
  by_cases hq1 : q = n1
  · rw [hq1]
    rw [E4.2 n1 h14, E3.2 n1 h13, E2.2 n1 h12]
    exact E1.1
  · by_cases hq2 : q = n2
    · rw [hq2]
      rw [E4.2 n2 h24, E3.2 n2 h23]
      have hb' : bGet pr1.1 n2 = bGet b n2 := D1.1 n2 (Ne.symm h12)
      rw [← hb']
      exact E2.1
    · by_cases hq3 : q = n3
      · rw [hq3]
        rw [E4.2 n3 h34]
        have hb' : bGet pr2.1 n3 = bGet b n3 := by
          rw [D2.1 n3 (Ne.symm h23), D1.1 n3 (Ne.symm h13)]
        rw [← hb']
        exact E3.1
      · by_cases hq4 : q = n4
        · rw [hq4]
          have hb' : bGet pr3.1 n4 = bGet b n4 := by
            rw [D3.1 n4 (Ne.symm h34), D2.1 n4 (Ne.symm h24), D1.1 n4 (Ne.symm h14)]
          rw [← hb']
          exact E4.1
        · rw [E4.2 q hq4, E3.2 q hq3, E2.2 q hq2, E1.2 q hq1]
          rw [D4.1 q hq4, D3.1 q hq3, D2.1 q hq2, D1.1 q hq1]
          exact tileEquiv_refl _

/-- A failed candidate branch (collapse pos, propagate, equivalently-restored
inner result, restore the log, reinstate the saved domain) returns the board
to its pre-branch logical state. -/
theorem branch_restore {r : AdjacencyMap} {b : Board} {pos : Vec2} {t : String}
    {saved : Domain} {b3 b2p : Board} {mods : List (Vec2 × String)}
    (hpos : bGet b pos = some (Tile.Uncollapsed saved))
    (hprop : propagate_collapse r (reinsert b pos (Tile.Collapsed t)) pos = some (b2p, mods))
    (hequiv : StateEquiv b3 b2p) :
    StateEquiv (reinsert (restore_domains b3 mods) pos (Tile.Uncollapsed saved)) b := by
  have hcol : bGet (reinsert b pos (Tile.Collapsed t)) pos = some (Tile.Collapsed t) :=
    bGet_reinsert_self _ _ _
  have hrt := prop_restore_core hcol hprop
  have hcong := restore_domains_equiv hequiv mods
  have hchain := stateEquiv_trans hcong hrt
  intro q
  by_cases hq : q = pos
  · rw [hq, bGet_reinsert_self, hpos]
    exact List.Perm.refl saved
  · rw [bGet_reinsert_ne _ _ _ _ hq]
    have hpt := hchain q
    rw [bGet_reinsert_ne _ _ _ _ hq] at hpt
    exact hpt

/-- Unfolding the candidate loop when the validity check rejects. -/
theorem tryCands_cons_skip {r : AdjacencyMap} {pos : Vec2}
    {recCall : Board → List Nat → Except CErr (Board × Bool × List Nat)}
    {t : String} {ts : List String} {b : Board} {s : List Nat}
    (hivp : is_valid_placement r b t pos = some false) :
    tryCands r pos recCall (t :: ts) b s = tryCands r pos recCall ts b s := by
  rw [tryCands, hivp]

/-- Unfolding the candidate loop when the validity check panics. -/
theorem tryCands_cons_bad {r : AdjacencyMap} {pos : Vec2}
    {recCall : Board → List Nat → Except CErr (Board × Bool × List Nat)}
    {t : String} {ts : List String} {b : Board} {s : List Nat}
    (hivp : is_valid_placement r b t pos = none) :
    tryCands r pos recCall (t :: ts) b s = Except.error CErr.panicked := by
  rw [tryCands, hivp]

/-- Unfolding the candidate loop on an accepted candidate. -/
theorem tryCands_cons_go {r : AdjacencyMap} {pos : Vec2}
    {recCall : Board → List Nat → Except CErr (Board × Bool × List Nat)}
    {t : String} {ts : List String} {b : Board} {s : List Nat} {saved : Domain}
    {prm : Board × List (Vec2 × String)}
    (hivp : is_valid_placement r b t pos = some true)
    (hbp : bGet b pos = some (Tile.Uncollapsed saved))
    (hprop : propagate_collapse r (reinsert b pos (Tile.Collapsed t)) pos = some prm) :
    tryCands r pos recCall (t :: ts) b s =
      match recCall prm.1 s with
      | Except.error e => Except.error e
      | Except.ok (b3, true, s2) => Except.ok (b3, true, s2)
      | Except.ok (b3, false, s2) =>
        tryCands r pos recCall ts
          (reinsert (restore_domains b3 prm.2) pos (Tile.Uncollapsed saved)) s2 := by
  rw [tryCands, hivp, hbp, hprop]

/-- Unfolding the candidate loop when the accepted candidate's propagation
panics. -/
theorem tryCands_cons_perr {r : AdjacencyMap} {pos : Vec2}
    {recCall : Board → List Nat → Except CErr (Board × Bool × List Nat)}
    {t : String} {ts : List String} {b : Board} {s : List Nat} {saved : Domain}
    (hivp : is_valid_placement r b t pos = some true)
    (hbp : bGet b pos = some (Tile.Uncollapsed saved))
    (hprop : propagate_collapse r (reinsert b pos (Tile.Collapsed t)) pos = none) :
    tryCands r pos recCall (t :: ts) b s = Except.error CErr.panicked := by
  rw [tryCands, hivp, hbp, hprop]

/-- Unfolding the candidate loop when the chosen cell is not uncollapsed
(the panic branches of collapse). -/
theorem tryCands_cons_nu {r : AdjacencyMap} {pos : Vec2}
    {recCall : Board → List Nat → Except CErr (Board × Bool × List Nat)}
    {t : String} {ts : List String} {b : Board} {s : List Nat}
    (hivp : is_valid_placement r b t pos = some true)
    (hbp : ∀ d, bGet b pos ≠ some (Tile.Uncollapsed d)) :
    tryCands r pos recCall (t :: ts) b s = Except.error CErr.panicked := by
  rw [tryCands, hivp]
  match hb : bGet b pos with
  | none => rfl
  | some (Tile.Collapsed w) => rfl
  | some (Tile.Uncollapsed d) => exact absurd hb (hbp d)

/-- If every inner recursive call restores on failure, a failing candidate
loop restores the board to its entry state. -/
theorem tryCands_fail_gen {r : AdjacencyMap} {pos : Vec2}
    {recCall : Board → List Nat → Except CErr (Board × Bool × List Nat)}
    (hrec : ∀ b s b' s', recCall b s = Except.ok (b', false, s') → StateEquiv b' b) :
    ∀ (cands : List String) (b : Board) (s : List Nat) (b' : Board) (s' : List Nat),
      tryCands r pos recCall cands b s = Except.ok (b', false, s') → StateEquiv b' b := by
  intro cands
  induction cands with
  | nil =>
    intro b s b' s' h
    rw [tryCands] at h
    simp at h
    obtain ⟨h1, h2⟩ := h
    subst h1
    exact stateEquiv_refl _
  | cons t ts ih =>
    intro b s b' s' h
    match hivp : is_valid_placement r b t pos with
    | none =>
      rw [tryCands_cons_bad hivp] at h
      exact Except.noConfusion h
    | some false =>
      rw [tryCands_cons_skip hivp] at h
      exact ih b s b' s' h
    | some true =>
      match hbp : bGet b pos with
      | none =>
        rw [tryCands_cons_nu hivp (by rw [hbp]; simp)] at h
        exact Except.noConfusion h
      | some (Tile.Collapsed w) =>
        rw [tryCands_cons_nu hivp (by rw [hbp]; simp)] at h
        exact Except.noConfusion h
      | some (Tile.Uncollapsed saved) =>
        match hprop : propagate_collapse r (reinsert b pos (Tile.Collapsed t)) pos with
        | none =>
          rw [tryCands_cons_perr hivp hbp hprop] at h
          exact Except.noConfusion h
        | some prm =>
          rw [tryCands_cons_go hivp hbp hprop] at h
          match hrc : recCall prm.1 s with
          | Except.error e =>
            rw [hrc] at h
            exact Except.noConfusion h
          | Except.ok (b3, true, s2) =>
            rw [hrc] at h
            simp at h
          | Except.ok (b3, false, s2) =>
            rw [hrc] at h
            have hb3 := hrec prm.1 s b3 s2 hrc
            have hb5 := branch_restore hbp hprop hb3
            exact stateEquiv_trans (ih _ s2 b' s' h) hb5

/-- Failure of the embedded collapse leaves the board in the logical state
it started in. -/
theorem collapse_fail_core :
    ∀ (fuel : Nat) (r : AdjacencyMap) (b : Board) (s : List Nat) (b' : Board) (s' : List Nat),
      collapseF fuel r b s = Except.ok (b', false, s') → StateEquiv b' b := by
  intro fuel
  induction fuel with
  | zero =>
    intro r b s b' s' h
    exact Except.noConfusion h
  | succ f ih =>
    intro r b s b' s' h
    simp only [collapseF] at h
    by_cases hc : is_collapsed b = true
    · simp [hc] at h
    · simp only [hc, if_false, Bool.false_eq_true] at h
      match hbp : bGet b (get_lowest_entropy b) with
      | none =>
        rw [hbp] at h
        exact Except.noConfusion h
      | some (Tile.Collapsed w) =>
        rw [hbp] at h
        exact Except.noConfusion h
      | some (Tile.Uncollapsed d) =>
        rw [hbp] at h
        exact tryCands_fail_gen (fun bb ss bb' ss' hh => ih r bb ss bb' ss' hh) _ b _ b' s' h

/-- The directional rule lookup succeeds and allows y next to x under lbl. -/
def dirOK (r : AdjacencyMap) (x lbl y : String) : Prop :=
  ∃ lst, ruleDir r x lbl = some lst ∧ y ∈ lst

/-- Every 4-adjacent pair of collapsed cells satisfies the adjacency rule in
both directional lookups that is_valid_placement performs for that pair. -/
def pairsOK (r : AdjacencyMap) (b : Board) : Prop :=
  ∀ p : Vec2, ∀ v w : String, bGet b p = some (Tile.Collapsed v) →
    ((bGet b (p.1 + 1, p.2) = some (Tile.Collapsed w) →
        dirOK r v dRight w ∧ dirOK r w dLeft v) ∧
     (bGet b (p.1, p.2 + 1) = some (Tile.Collapsed w) →
        dirOK r v dAbove w ∧ dirOK r w dBelow v))

/-- Every element of every domain is, from its own rule entry's point of
view, compatible with each collapsed 4-neighbour (the half propagation
enforces). -/
def domOK (r : AdjacencyMap) (b : Board) : Prop :=
  ∀ p : Vec2, ∀ d, bGet b p = some (Tile.Uncollapsed d) → ∀ e ∈ d,
    (∀ v, bGet b (p.1 - 1, p.2) = some (Tile.Collapsed v) → dirOK r e dLeft v) ∧
    (∀ v, bGet b (p.1 + 1, p.2) = some (Tile.Collapsed v) → dirOK r e dRight v) ∧
    (∀ v, bGet b (p.1, p.2 - 1) = some (Tile.Collapsed v) → dirOK r e dBelow v) ∧
    (∀ v, bGet b (p.1, p.2 + 1) = some (Tile.Collapsed v) → dirOK r e dAbove v)

/-- The constraint one neighbour block of is_valid_placement checks: a
collapsed tile at np must list v under lbl. -/
def nbrOK (r : AdjacencyMap) (b : Board) (v : String) (np : Vec2) (lbl : String) : Prop :=
  ∀ w, bGet b np = some (Tile.Collapsed w) → ∃ lst, ruleDir r w lbl = some lst ∧ v ∈ lst

/-- A kept element of a propagation retain is rule-compatible with the
collapsed value. -/
theorem keepF_true {r : AdjacencyMap} {val lbl x : String}
    (h : keepF r val lbl x = some true) : dirOK r x lbl val := by
  rw [keepF] at h
  match hr : ruleDir r x lbl with
  | none =>
    rw [hr] at h
    exact Option.noConfusion h
  | some lst =>
    rw [hr] at h
    simp at h
    exact ⟨lst, hr, h⟩

theorem tileEquiv_col_right {v : String} {o : Option Tile}
    (h : TileEquiv o (some (Tile.Collapsed v))) : o = some (Tile.Collapsed v) :=
  tileEquiv_col_left (tileEquiv_symm h h)

theorem tileEquiv_unc_right {d : Domain} {o : Option Tile}
    (h : TileEquiv o (some (Tile.Uncollapsed d))) :
    ∃ d0, o = some (Tile.Uncollapsed d0) ∧ List.Perm d0 d := by
  obtain ⟨d2, he, hp⟩ := tileEquiv_unc_left (tileEquiv_symm h h)
  exact ⟨d2, he, hp.symm⟩

/-- ivpStep against an absent neighbour. -/
theorem ivpStep_absent {r : AdjacencyMap} {lbl : String} {np : Vec2} {b : Board} {v : String}
    (hb : bGet b np = none) : ivpStep r lbl np b v = some true := by
  rw [ivpStep, hb]

/-- ivpStep against an uncollapsed neighbour. -/
theorem ivpStep_unc {r : AdjacencyMap} {lbl : String} {np : Vec2} {b : Board} {v : String}
    {d : Domain} (hb : bGet b np = some (Tile.Uncollapsed d)) :
    ivpStep r lbl np b v = some true := by
  rw [ivpStep, hb]

/-- ivpStep against a collapsed neighbour performs the rule lookup. -/
theorem ivpStep_col {r : AdjacencyMap} {lbl : String} {np : Vec2} {b : Board} {v w : String}
    (hb : bGet b np = some (Tile.Collapsed w)) :
    ivpStep r lbl np b v =
      match ruleDir r w lbl with
      | none => none
      | some lst => some (decide (v ∈ lst)) := by
  rw [ivpStep, hb]

/-- One block of the validity check succeeds exactly when its constraint
holds. -/
theorem ivpStep_true_iff {r : AdjacencyMap} {lbl : String} {np : Vec2} {b : Board}
    {v : String} : ivpStep r lbl np b v = some true ↔ nbrOK r b v np lbl := by
  match hb : bGet b np with
  | none =>
    rw [ivpStep_absent hb]
    constructor
    · intro _ w hw
      rw [hb] at hw
      exact Option.noConfusion hw
    · intro _
      rfl
  | some (Tile.Uncollapsed d) =>
    rw [ivpStep_unc hb]
    constructor
    · intro _ w hw
      rw [hb] at hw
      exact Tile.noConfusion (Option.some.inj hw)
    · intro _
      rfl
  | some (Tile.Collapsed w) =>
    rw [ivpStep_col hb]
    match hr : ruleDir r w lbl with
    | none =>
      constructor
      · intro hcon
        exact Option.noConfusion hcon
      · intro hn
        obtain ⟨lst, hlst, _⟩ := hn w hb
        rw [hr] at hlst
        exact Option.noConfusion hlst
    | some lst =>
      constructor
      · intro hdec w2 hw2
        simp at hdec
        have hww : w2 = w := by
          rw [hb] at hw2
          exact (Tile.Collapsed.inj (Option.some.inj hw2)).symm
        subst hww
        exact ⟨lst, hr, hdec⟩
      · intro hn
        obtain ⟨lst2, hlst2, hv2⟩ := hn w hb
        rw [hr] at hlst2
        have heq : lst = lst2 := Option.some.inj hlst2
        subst heq
        simp [hv2]

/-- The validity check succeeds exactly when all four neighbour constraints
hold. -/
theorem ivp_true_iff {r : AdjacencyMap} {b : Board} {v : String} {pos : Vec2} :
    is_valid_placement r b v pos = some true ↔
      (nbrOK r b v (pos.1 - 1, pos.2) dRight ∧ nbrOK r b v (pos.1 + 1, pos.2) dLeft ∧
       nbrOK r b v (pos.1, pos.2 - 1) dAbove ∧ nbrOK r b v (pos.1, pos.2 + 1) dBelow) := by
  rw [is_valid_placement]
  match h1 : ivpStep r dRight (pos.1 - 1, pos.2) b v with
  | none =>
    constructor
    · intro hcon
      exact Option.noConfusion hcon
    · intro hc
      have := ivpStep_true_iff.mpr hc.1
      rw [h1] at this
      exact Option.noConfusion this
  | some false =>
    constructor
    · intro hcon
      exact absurd (Option.some.inj hcon) (by simp)
    · intro hc
      have := ivpStep_true_iff.mpr hc.1
      rw [h1] at this
      exact absurd (Option.some.inj this) (by simp)
  | some true =>
    have hn1 := ivpStep_true_iff.mp h1
    match h2 : ivpStep r dLeft (pos.1 + 1, pos.2) b v with
    | none =>
      constructor
      · intro hcon
        exact Option.noConfusion hcon
      · intro hc
        have := ivpStep_true_iff.mpr hc.2.1
        rw [h2] at this
        exact Option.noConfusion this
    | some false =>
      constructor
      · intro hcon
        exact absurd (Option.some.inj hcon) (by simp)
      · intro hc
        have := ivpStep_true_iff.mpr hc.2.1
        rw [h2] at this
        exact absurd (Option.some.inj this) (by simp)
    | some true =>
      have hn2 := ivpStep_true_iff.mp h2
      match h3 : ivpStep r dAbove (pos.1, pos.2 - 1) b v with
      | none =>
        constructor
        · intro hcon
          exact Option.noConfusion hcon
        · intro hc
          have := ivpStep_true_iff.mpr hc.2.2.1
          rw [h3] at this
          exact Option.noConfusion this
      | some false =>
        constructor
        · intro hcon
          exact absurd (Option.some.inj hcon) (by simp)
        · intro hc
          have := ivpStep_true_iff.mpr hc.2.2.1
          rw [h3] at this
          exact absurd (Option.some.inj this) (by simp)
      | some true =>
        have hn3 := ivpStep_true_iff.mp h3
        match h4 : ivpStep r dBelow (pos.1, pos.2 + 1) b v with
        | none =>
          constructor
          · intro hcon
            exact Option.noConfusion hcon
          · intro hc
            have := ivpStep_true_iff.mpr hc.2.2.2
            rw [h4] at this
            exact Option.noConfusion this
        | some false =>
          constructor
          · intro hcon
            exact absurd (Option.some.inj hcon) (by simp)
          · intro hc
            have := ivpStep_true_iff.mpr hc.2.2.2
            rw [h4] at this
            exact absurd (Option.some.inj this) (by simp)
        | some true =>
          have hn4 := ivpStep_true_iff.mp h4
          exact ⟨fun _ => ⟨hn1, hn2, hn3, hn4⟩, fun _ => rfl⟩

/-- pairsOK transfers across state equivalence. -/
theorem pairsOK_equiv {r : AdjacencyMap} {b b2 : Board} (h : StateEquiv b b2)
    (hp : pairsOK r b) : pairsOK r b2 := by
  intro p v w hv
  have hv0 : bGet b p = some (Tile.Collapsed v) := by
    have hq := h p
    rw [hv] at hq
    exact tileEquiv_col_right hq
  constructor
  · intro hw
    have hw0 : bGet b (p.1 + 1, p.2) = some (Tile.Collapsed w) := by
      have hq := h (p.1 + 1, p.2)
      rw [hw] at hq
      exact tileEquiv_col_right hq
    exact (hp p v w hv0).1 hw0
  · intro hw
    have hw0 : bGet b (p.1, p.2 + 1) = some (Tile.Collapsed w) := by
      have hq := h (p.1, p.2 + 1)
      rw [hw] at hq
      exact tileEquiv_col_right hq
    exact (hp p v w hv0).2 hw0

/-- domOK transfers across state equivalence. -/
theorem domOK_equiv {r : AdjacencyMap} {b b2 : Board} (h : StateEquiv b b2)
    (hd : domOK r b) : domOK r b2 := by
  intro p d hU e he
  have hq := h p
  rw [hU] at hq
  obtain ⟨d0, hU0, hperm⟩ := tileEquiv_unc_right hq
  have he0 : e ∈ d0 := hperm.mem_iff.mpr he
  have hcl : ∀ np : Vec2, ∀ v, bGet b2 np = some (Tile.Collapsed v) →
      bGet b np = some (Tile.Collapsed v) := by
    intro np v hv
    have hq2 := h np
    rw [hv] at hq2
    exact tileEquiv_col_right hq2
  obtain ⟨c1, c2, c3, c4⟩ := hd p d0 hU0 e he0
  exact ⟨fun v hv => c1 v (hcl _ v hv), fun v hv => c2 v (hcl _ v hv),
    fun v hv => c3 v (hcl _ v hv), fun v hv => c4 v (hcl _ v hv)⟩


/-- How one neighbour of a collapsed cell looks after propagation: either
untouched (and not an uncollapsed cell), or a filtered uncollapsed domain
each of whose elements was already present and passes the retain test. -/
def nbrDesc (keep : String → Option Bool) (bIn bOut : Board) (np : Vec2) : Prop :=
  (bGet bOut np = bGet bIn np ∧ ∀ d, bGet bIn np ≠ some (Tile.Uncollapsed d)) ∨
  (∃ d ks, bGet bIn np = some (Tile.Uncollapsed d) ∧
    bGet bOut np = some (Tile.Uncollapsed ks) ∧ (∀ x ∈ ks, x ∈ d ∧ keep x = some true) ∧
    ∃ rs2, List.Perm (ks ++ rs2) d)

/-- nbrDesc only depends on the two lookups at the neighbour position. -/
theorem nbrDesc_shift {keep : String → Option Bool} {np : Vec2}
    {bIn bIn2 bOut bOut2 : Board} (hIn : bGet bIn2 np = bGet bIn np)
    (hOut : bGet bOut2 np = bGet bOut np) (h : nbrDesc keep bIn bOut np) :
    nbrDesc keep bIn2 bOut2 np := by
  rcases h with ⟨h1, h2⟩ | ⟨d, ks, hd, hk, hx, hrs⟩
  · exact Or.inl ⟨by rw [hIn, hOut, h1], by rw [hIn]; exact h2⟩
  · exact Or.inr ⟨d, ks, by rw [hIn, hd], by rw [hOut, hk], hx, hrs⟩

/-- A successful propStep yields its neighbour description. -/
theorem stepDesc_nbrDesc {keep : String → Option Bool} {np : Vec2} {bIn bOut : Board}
    {m : List (Vec2 × String)} (D : StepDesc keep np bIn bOut m) :
    nbrDesc keep bIn bOut np := by
  rcases D.2.2 with ⟨rfl, rfl, hnu⟩ | ⟨d, ks, rs, hIn, hperm, hks, _, hOut, rfl⟩
  · exact Or.inl ⟨rfl, hnu⟩
  · exact Or.inr ⟨d, ks, hIn, hOut,
      fun x hx => ⟨hperm.subset (List.mem_append_left rs hx), hks x hx⟩, rs, hperm⟩

/-- Full observable description of a successful propagation from a
collapsed cell. -/
theorem propagate_desc {r : AdjacencyMap} {b : Board} {pos : Vec2} {val : String}
    {bp : Board} {mods : List (Vec2 × String)}
    (hpos : bGet b pos = some (Tile.Collapsed val))
    (h : propagate_collapse r b pos = some (bp, mods)) :
    (∀ q, q ≠ (pos.1 - 1, pos.2) → q ≠ (pos.1 + 1, pos.2) →
      q ≠ (pos.1, pos.2 - 1) → q ≠ (pos.1, pos.2 + 1) → bGet bp q = bGet b q) ∧
    nbrDesc (keepF r val dRight) b bp (pos.1 - 1, pos.2) ∧
    nbrDesc (keepF r val dLeft) b bp (pos.1 + 1, pos.2) ∧
    nbrDesc (keepF r val dAbove) b bp (pos.1, pos.2 - 1) ∧
    nbrDesc (keepF r val dBelow) b bp (pos.1, pos.2 + 1) := by
  obtain ⟨pr1, pr2, pr3, pr4, h1, h2, h3, h4, hb2, hmods⟩ := propagate_col_spec hpos h
  subst hb2
  subst hmods
  have D1 := propStep_desc h1
  have D2 := propStep_desc h2
  have D3 := propStep_desc h3
  have D4 := propStep_desc h4
  obtain ⟨hne1, hne2, hne3, hne4, h12, h13, h14, h23, h24, h34⟩ := nbr_facts pos
  refine ⟨?_, ?_, ?_, ?_, ?_⟩
  · intro q hq1 hq2 hq3 hq4
    rw [D4.1 q hq4, D3.1 q hq3, D2.1 q hq2, D1.1 q hq1]
  · have hshift : bGet pr4.1 (pos.1 - 1, pos.2) = bGet pr1.1 (pos.1 - 1, pos.2) := by
      rw [D4.1 _ h14, D3.1 _ h13, D2.1 _ h12]
    exact nbrDesc_shift rfl hshift (stepDesc_nbrDesc D1)
  · have hshift : bGet pr4.1 (pos.1 + 1, pos.2) = bGet pr2.1 (pos.1 + 1, pos.2) := by
      rw [D4.1 _ h24, D3.1 _ h23]
    exact nbrDesc_shift (D1.1 _ (Ne.symm h12)).symm hshift (stepDesc_nbrDesc D2)
  · have hshift : bGet b (pos.1, pos.2 - 1) = bGet pr2.1 (pos.1, pos.2 - 1) := by
      rw [D2.1 _ (Ne.symm h23), D1.1 _ (Ne.symm h13)]
    exact nbrDesc_shift hshift (D4.1 _ h34) (stepDesc_nbrDesc D3)
  · have hshift : bGet b (pos.1, pos.2 + 1) = bGet pr3.1 (pos.1, pos.2 + 1) := by
      rw [D3.1 _ (Ne.symm h34), D2.1 _ (Ne.symm h24), D1.1 _ (Ne.symm h14)]
    exact nbrDesc_shift hshift rfl (stepDesc_nbrDesc D4)

/-- Collapsing a domain element that passes the validity check and then
propagating preserves both halves of the consistency invariant. -/
theorem good_step {r : AdjacencyMap} {b : Board} {pos : Vec2} {t : String} {saved : Domain}
    {bp : Board} {mods : List (Vec2 × String)}
    (hGp : pairsOK r b) (hGd : domOK r b)
    (hpos : bGet b pos = some (Tile.Uncollapsed saved)) (ht : t ∈ saved)
    (hivp : is_valid_placement r b t pos = some true)
    (hprop : propagate_collapse r (reinsert b pos (Tile.Collapsed t)) pos = some (bp, mods)) :
    pairsOK r bp ∧ domOK r bp := by
  have hcol1 : bGet (reinsert b pos (Tile.Collapsed t)) pos = some (Tile.Collapsed t) :=
    bGet_reinsert_self _ _ _
  have hfr1 : ∀ q, q ≠ pos →
      bGet (reinsert b pos (Tile.Collapsed t)) q = bGet b q :=
    fun q hq => bGet_reinsert_ne _ _ _ _ hq
  obtain ⟨Hfr0, Nb1, Nb2, Nb3, Nb4⟩ := propagate_desc hcol1 hprop
  obtain ⟨hne1, hne2, hne3, hne4, h12, h13, h14, h23, h24, h34⟩ := nbr_facts pos
  have N1 : nbrDesc (keepF r t dRight) b bp (pos.1 - 1, pos.2) :=
    nbrDesc_shift (hfr1 _ hne1).symm rfl Nb1
  have N2 : nbrDesc (keepF r t dLeft) b bp (pos.1 + 1, pos.2) :=
    nbrDesc_shift (hfr1 _ hne2).symm rfl Nb2
  have N3 : nbrDesc (keepF r t dAbove) b bp (pos.1, pos.2 - 1) :=
    nbrDesc_shift (hfr1 _ hne3).symm rfl Nb3
  have N4 : nbrDesc (keepF r t dBelow) b bp (pos.1, pos.2 + 1) :=
    nbrDesc_shift (hfr1 _ hne4).symm rfl Nb4
  have Hfr : ∀ q, q ≠ (pos.1 - 1, pos.2) → q ≠ (pos.1 + 1, pos.2) →
      q ≠ (pos.1, pos.2 - 1) → q ≠ (pos.1, pos.2 + 1) → q ≠ pos → bGet bp q = bGet b q :=
    fun q hq1 hq2 hq3 hq4 hqp => (Hfr0 q hq1 hq2 hq3 hq4).trans (hfr1 q hqp)
  have hbp_pos : bGet bp pos = some (Tile.Collapsed t) := by
    rw [Hfr0 pos (Ne.symm hne1) (Ne.symm hne2) (Ne.symm hne3) (Ne.symm hne4)]
    exact hcol1
  have hnbrT : ∀ (keep : String → Option Bool) (np : Vec2), nbrDesc keep b bp np →
      (∀ v, bGet bp np = some (Tile.Collapsed v) → bGet b np = some (Tile.Collapsed v)) ∧
      (∀ v, bGet b np = some (Tile.Collapsed v) → bGet bp np = some (Tile.Collapsed v)) ∧
      (∀ d2, bGet bp np = some (Tile.Uncollapsed d2) →
        (∃ db, bGet b np = some (Tile.Uncollapsed db) ∧ ∀ x ∈ d2, x ∈ db) ∧
        (∀ x ∈ d2, keep x = some true)) := by
    intro keep np hN
    rcases hN with ⟨heq, hnu⟩ | ⟨dd, ks, hd, hk, hf, _⟩
    · refine ⟨fun v hv => by rw [← heq]; exact hv, fun v hv => by rw [heq]; exact hv, ?_⟩
      intro d2 hv
      rw [heq] at hv
      exact absurd hv (hnu d2)
    · refine ⟨?_, ?_, ?_⟩
      · intro v hv
        rw [hk] at hv
        exact (Tile.noConfusion (Option.some.inj hv) : False).elim
      · intro v hv
        rw [hd] at hv
        exact (Tile.noConfusion (Option.some.inj hv) : False).elim
      · intro d2 hv
        rw [hk] at hv
        have hd2 : d2 = ks := (Tile.Uncollapsed.inj (Option.some.inj hv)).symm
        subst hd2
        exact ⟨⟨dd, hd, fun x hx => (hf x hx).1⟩, fun x hx => (hf x hx).2⟩
  have T1 := hnbrT _ _ N1
  have T2 := hnbrT _ _ N2
  have T3 := hnbrT _ _ N3
  have T4 := hnbrT _ _ N4
  have hcolT : ∀ q v, q ≠ pos → bGet bp q = some (Tile.Collapsed v) →
      bGet b q = some (Tile.Collapsed v) := by
    intro q v hqp hv
    by_cases hq1 : q = (pos.1 - 1, pos.2)
    · rw [hq1] at hv ⊢; exact T1.1 v hv
    · by_cases hq2 : q = (pos.1 + 1, pos.2)
      · rw [hq2] at hv ⊢; exact T2.1 v hv
      · by_cases hq3 : q = (pos.1, pos.2 - 1)
        · rw [hq3] at hv ⊢; exact T3.1 v hv
        · by_cases hq4 : q = (pos.1, pos.2 + 1)
          · rw [hq4] at hv ⊢; exact T4.1 v hv
          · rw [← Hfr q hq1 hq2 hq3 hq4 hqp]; exact hv
  have huncT : ∀ q d2, q ≠ pos → bGet bp q = some (Tile.Uncollapsed d2) →
      ∃ db, bGet b q = some (Tile.Uncollapsed db) ∧ ∀ x ∈ d2, x ∈ db := by
    intro q d2 hqp hv
    by_cases hq1 : q = (pos.1 - 1, pos.2)
    · rw [hq1] at hv ⊢; exact (T1.2.2 d2 hv).1
    · by_cases hq2 : q = (pos.1 + 1, pos.2)
      · rw [hq2] at hv ⊢; exact (T2.2.2 d2 hv).1
      · by_cases hq3 : q = (pos.1, pos.2 - 1)
        · rw [hq3] at hv ⊢; exact (T3.2.2 d2 hv).1
        · by_cases hq4 : q = (pos.1, pos.2 + 1)
          · rw [hq4] at hv ⊢; exact (T4.2.2 d2 hv).1
          · rw [← Hfr q hq1 hq2 hq3 hq4 hqp]
            exact ⟨d2, hv, fun x hx => hx⟩
  obtain ⟨HN1, HN2, HN3, HN4⟩ := ivp_true_iff.mp hivp
  obtain ⟨hd1, hd2, hd3, hd4⟩ := hGd pos saved hpos t ht
  constructor
  · -- pairsOK
    intro p v w hv
    constructor
    · intro hw
      by_cases hp_pos : p = pos
      · rw [hp_pos] at hv hw
        have hvt : v = t := Tile.Collapsed.inj (Option.some.inj (hv.symm.trans hbp_pos))
        subst hvt
        have hw_b : bGet b (pos.1 + 1, pos.2) = some (Tile.Collapsed w) :=
          hcolT _ w hne2 hw
        exact ⟨hd2 w hw_b, HN2 w hw_b⟩
      · by_cases hnb_pos : ((p.1 + 1 : Int), p.2) = pos
        · rw [hnb_pos] at hw
          have hwt : w = t := Tile.Collapsed.inj (Option.some.inj (hw.symm.trans hbp_pos))
          subst hwt
          have hp_eq : p = ((pos.1 - 1 : Int), pos.2) := by
            rw [Prod.ext_iff] at hnb_pos ⊢
            simp at hnb_pos ⊢
            omega
          rw [hp_eq] at hv
          have hv_b : bGet b (pos.1 - 1, pos.2) = some (Tile.Collapsed v) :=
            hcolT _ v hne1 hv
          exact ⟨HN1 v hv_b, hd1 v hv_b⟩
        · have hv_b := hcolT p v hp_pos hv
          have hw_b := hcolT _ w hnb_pos hw
          exact (hGp p v w hv_b).1 hw_b
    · intro hw
      by_cases hp_pos : p = pos
      · rw [hp_pos] at hv hw
        have hvt : v = t := Tile.Collapsed.inj (Option.some.inj (hv.symm.trans hbp_pos))
        subst hvt
        have hw_b : bGet b (pos.1, pos.2 + 1) = some (Tile.Collapsed w) :=
          hcolT _ w hne4 hw
        exact ⟨hd4 w hw_b, HN4 w hw_b⟩
      · by_cases hnb_pos : ((p.1 : Int), p.2 + 1) = pos
        · rw [hnb_pos] at hw
          have hwt : w = t := Tile.Collapsed.inj (Option.some.inj (hw.symm.trans hbp_pos))
          subst hwt
          have hp_eq : p = ((pos.1 : Int), pos.2 - 1) := by
            rw [Prod.ext_iff] at hnb_pos ⊢
            simp at hnb_pos ⊢
            omega
          rw [hp_eq] at hv
          have hv_b : bGet b (pos.1, pos.2 - 1) = some (Tile.Collapsed v) :=
            hcolT _ v hne3 hv
          exact ⟨HN3 v hv_b, hd3 v hv_b⟩
        · have hv_b := hcolT p v hp_pos hv
          have hw_b := hcolT _ w hnb_pos hw
          exact (hGp p v w hv_b).2 hw_b
  · -- domOK
    intro p d2 hU e he
    have hp_pos : p ≠ pos := by
      intro hh
      rw [hh, hbp_pos] at hU
      exact Tile.noConfusion (Option.some.inj hU)
    obtain ⟨db, hdb, hsub⟩ := huncT p d2 hp_pos hU
    obtain ⟨c1, c2, c3, c4⟩ := hGd p db hdb e (hsub e he)
    refine ⟨?_, ?_, ?_, ?_⟩
    · intro v hv
      by_cases hnp : ((p.1 - 1 : Int), p.2) = pos
      · rw [hnp] at hv
        have hvt : v = t := Tile.Collapsed.inj (Option.some.inj (hv.symm.trans hbp_pos))
        subst hvt
        have hp_eq : p = ((pos.1 + 1 : Int), pos.2) := by
          rw [Prod.ext_iff] at hnp ⊢
          simp at hnp ⊢
          omega
        rw [hp_eq] at hU
        exact keepF_true ((T2.2.2 d2 hU).2 e he)
      · exact c1 v (hcolT _ v hnp hv)
    · intro v hv
      by_cases hnp : ((p.1 + 1 : Int), p.2) = pos
      · rw [hnp] at hv
        have hvt : v = t := Tile.Collapsed.inj (Option.some.inj (hv.symm.trans hbp_pos))
        subst hvt
        have hp_eq : p = ((pos.1 - 1 : Int), pos.2) := by
          rw [Prod.ext_iff] at hnp ⊢
          simp at hnp ⊢
          omega
        rw [hp_eq] at hU
        exact keepF_true ((T1.2.2 d2 hU).2 e he)
      · exact c2 v (hcolT _ v hnp hv)
    · intro v hv
      by_cases hnp : ((p.1 : Int), p.2 - 1) = pos
      · rw [hnp] at hv
        have hvt : v = t := Tile.Collapsed.inj (Option.some.inj (hv.symm.trans hbp_pos))
        subst hvt
        have hp_eq : p = ((pos.1 : Int), pos.2 + 1) := by
          rw [Prod.ext_iff] at hnp ⊢
          simp at hnp ⊢
          omega
        rw [hp_eq] at hU
        exact keepF_true ((T4.2.2 d2 hU).2 e he)
      · exact c3 v (hcolT _ v hnp hv)
    · intro v hv
      by_cases hnp : ((p.1 : Int), p.2 + 1) = pos
      · rw [hnp] at hv
        have hvt : v = t := Tile.Collapsed.inj (Option.some.inj (hv.symm.trans hbp_pos))
        subst hvt
        have hp_eq : p = ((pos.1 : Int), pos.2 - 1) := by
          rw [Prod.ext_iff] at hnp ⊢
          simp at hnp ⊢
          omega
        rw [hp_eq] at hU
        exact keepF_true ((T3.2.2 d2 hU).2 e he)
      · exact c4 v (hcolT _ v hnp hv)

/-- Selecting an index and erasing it is a permutation step. -/
theorem cons_eraseIdx_perm {α : Type} (x0 : α) :
    ∀ (xs : List α) (i : Nat), i < xs.length →
      List.Perm (xs.getD i x0 :: xs.eraseIdx i) xs := by
  intro xs
  induction xs with
  | nil =>
    intro i h
    simp at h
  | cons y ys ih =>
    intro i h
    match i with
    | 0 => simp [List.getD]
    | Nat.succ j =>
      have hj : j < ys.length := by simpa using h
      have hys := ih j hj
      show List.Perm (ys.getD j x0 :: y :: ys.eraseIdx j) (y :: ys)
      exact (List.Perm.swap y (ys.getD j x0) (ys.eraseIdx j)).trans (hys.cons y)

/-- The selection shuffle permutes its input when run with full fuel. -/
theorem pickGo_perm {α : Type} :
    ∀ (n : Nat) (s : List Nat) (xs : List α), n = xs.length →
      List.Perm (pickGo n s xs).1 xs := by
  intro n
  induction n with
  | zero =>
    intro s xs h
    match xs with
    | [] => simp [pickGo]
    | x :: rest => simp at h
  | succ m ih =>
    intro s xs h
    match xs with
    | [] => simp at h
    | x :: rest =>
      rw [pickGo]
      have hlen : (s.headD 0 % (x :: rest).length) < (x :: rest).length :=
        Nat.mod_lt _ (by simp)
      have hlen2 : m = ((x :: rest).eraseIdx (s.headD 0 % (x :: rest).length)).length := by
        rw [List.length_eraseIdx]
        simp only [hlen, if_true]
        simp only [List.length_cons] at h ⊢
        omega
      have hrec := ih s.tail ((x :: rest).eraseIdx (s.headD 0 % (x :: rest).length)) hlen2
      exact (hrec.cons _).trans (cons_eraseIdx_perm x (x :: rest) _ hlen)

/-- The shuffled candidate list permutes the domain it came from. -/
theorem selShuffle_perm {α : Type} (s : List Nat) (xs : List α) :
    List.Perm (selShuffle s xs).1 xs :=
  pickGo_perm xs.length s xs rfl

/-- A board that reports is_collapsed holds only collapsed tiles. -/
theorem is_collapsed_spec {b : Board} (h : is_collapsed b = true) :
    ∀ (p : Vec2) (tile : Tile), bGet b p = some tile → ∃ v, tile = Tile.Collapsed v := by
  intro p tile hget
  rw [is_collapsed, List.all_eq_true] at h
  obtain ⟨e, hfind, he⟩ := Option.map_eq_some'.mp hget
  have hmem := List.mem_of_find?_eq_some hfind
  have hall := h e hmem
  match htile : e.2 with
  | Tile.Collapsed v => exact ⟨v, by rw [← he, htile]⟩
  | Tile.Uncollapsed dd =>
    rw [htile] at hall
    simp [isUncolT] at hall

/-- A succeeding candidate loop preserves the consistency invariant and ends
fully collapsed, provided inner calls do. -/
theorem tryCands_true_gen {r : AdjacencyMap} {pos : Vec2}
    {recCall : Board → List Nat → Except CErr (Board × Bool × List Nat)}
    (hfail : ∀ b s b' s', recCall b s = Except.ok (b', false, s') → StateEquiv b' b)
    (htrue : ∀ b s b' s', pairsOK r b → domOK r b → recCall b s = Except.ok (b', true, s') →
      (pairsOK r b' ∧ domOK r b') ∧ is_collapsed b' = true) :
    ∀ (cands : List String) (b : Board) (s : List Nat) (b' : Board) (s' : List Nat)
      (dc : Domain), pairsOK r b → domOK r b → bGet b pos = some (Tile.Uncollapsed dc) →
      (∀ x ∈ cands, x ∈ dc) →
      tryCands r pos recCall cands b s = Except.ok (b', true, s') →
      (pairsOK r b' ∧ domOK r b') ∧ is_collapsed b' = true := by
  intro cands
  induction cands with
  | nil =>
    intro b s b' s' dc _ _ _ _ h
    rw [tryCands] at h
    simp at h
  | cons t ts ih =>
    intro b s b' s' dc hGp hGd hbp hsub h
    match hivp : is_valid_placement r b t pos with
    | none =>
      rw [tryCands_cons_bad hivp] at h
      exact Except.noConfusion h
    | some false =>
      rw [tryCands_cons_skip hivp] at h
      exact ih b s b' s' dc hGp hGd hbp
        (fun x hx => hsub x (List.mem_cons_of_mem t hx)) h
    | some true =>
      match hprop : propagate_collapse r (reinsert b pos (Tile.Collapsed t)) pos with
      | none =>
        rw [tryCands_cons_perr hivp hbp hprop] at h
        exact Except.noConfusion h
      | some prm =>
        rw [tryCands_cons_go hivp hbp hprop] at h
        match hrc : recCall prm.1 s with
        | Except.error e =>
          rw [hrc] at h
          exact Except.noConfusion h
        | Except.ok (b3, true, s2) =>
          rw [hrc] at h
          simp at h
          obtain ⟨h1, h2⟩ := h
          subst h1
          have hGOOD2 := good_step hGp hGd hbp (hsub t (List.mem_cons_self t ts)) hivp hprop
          exact htrue prm.1 s b3 s2 hGOOD2.1 hGOOD2.2 hrc
        | Except.ok (b3, false, s2) =>
          rw [hrc] at h
          have hb3 := hfail prm.1 s b3 s2 hrc
          have hb5 := branch_restore hbp hprop hb3
          have hGp5 := pairsOK_equiv (stateEquiv_symm hb5) hGp
          have hGd5 := domOK_equiv (stateEquiv_symm hb5) hGd
          have hU5 : bGet (reinsert (restore_domains b3 prm.2) pos (Tile.Uncollapsed dc))
              pos = some (Tile.Uncollapsed dc) := bGet_reinsert_self _ _ _
          exact ih _ s2 b' s' dc hGp5 hGd5 hU5
            (fun x hx => hsub x (List.mem_cons_of_mem t hx)) h

/-- Success of the embedded collapse from a consistent board yields a fully
collapsed, consistent board. -/
theorem collapse_true_core :
    ∀ (fuel : Nat) (r : AdjacencyMap) (b : Board) (s : List Nat) (b' : Board) (s' : List Nat),
      pairsOK r b → domOK r b → collapseF fuel r b s = Except.ok (b', true, s') →
      (pairsOK r b' ∧ domOK r b') ∧ is_collapsed b' = true := by
  intro fuel
  induction fuel with
  | zero =>
    intro r b s b' s' _ _ h
    exact Except.noConfusion h
  | succ f ih =>
    intro r b s b' s' hGp hGd h
    simp only [collapseF] at h
    by_cases hc : is_collapsed b = true
    · simp [hc] at h
      obtain ⟨h1, h2⟩ := h
      subst h1
      exact ⟨⟨hGp, hGd⟩, hc⟩
    · simp only [hc, if_false, Bool.false_eq_true] at h
      match hbp : bGet b (get_lowest_entropy b) with
      | none =>
        rw [hbp] at h
        exact Except.noConfusion h
      | some (Tile.Collapsed w) =>
        rw [hbp] at h
        exact Except.noConfusion h
      | some (Tile.Uncollapsed d) =>
        rw [hbp] at h
        exact tryCands_true_gen
          (fun bb ss bb' ss' hh => collapse_fail_core f r bb ss bb' ss' hh)
          (fun bb ss bb' ss' hp hd hh => ih r bb ss bb' ss' hp hd hh)
          (selShuffle s d).1 b (selShuffle s d).2 b' s' d hGp hGd hbp
          (fun x hx => (selShuffle_perm s d).subset hx) h

/-- The set of populated positions of a board. -/
def keySet (b : Board) : Finset Vec2 :=
  (b.map fun e => e.1).toFinset

/-- Tag of an optional tile, true when present and uncollapsed. -/
def isUncolO : Option Tile → Bool
  | some (Tile.Uncollapsed _) => true
  | _ => false

/-- Number of populated positions currently holding a domain. -/
def uncollapsedCount (b : Board) : Nat :=
  (keySet b |>.filter fun q => isUncolO (bGet b q) = true).card

theorem mem_keySet {b : Board} {q : Vec2} : q ∈ keySet b ↔ bGet b q ≠ none := by
  rw [keySet, List.mem_toFinset, List.mem_map]
  constructor
  · intro he hnone
    obtain ⟨e, hmem, hq⟩ := he
    rw [bGet, Option.map_eq_none'] at hnone
    rw [List.find?_eq_none] at hnone
    exact absurd (by simp [hq] : decide (e.1 = q) = true) (by simpa using hnone e hmem)
  · intro hne
    match hget : bGet b q with
    | none => exact absurd hget hne
    | some tile =>
      obtain ⟨e, hfind, _⟩ := Option.map_eq_some'.mp hget
      refine ⟨e, List.mem_of_find?_eq_some hfind, ?_⟩
      have := List.find?_some hfind
      simpa using this

theorem tileEquiv_none_right {o : Option Tile} (h : TileEquiv o none) : o = none :=
  tileEquiv_none_left (tileEquiv_symm h h)

/-- Counting only looks at the pointwise tags and presence of cells. -/
theorem count_ext {b b2 : Board}
    (hpt : ∀ q, isUncolO (bGet b2 q) = isUncolO (bGet b q))
    (hnn : ∀ q, bGet b2 q = none ↔ bGet b q = none) :
    uncollapsedCount b2 = uncollapsedCount b := by
  have hks : keySet b2 = keySet b := by
    apply Finset.ext
    intro q
    rw [mem_keySet, mem_keySet]
    constructor
    · intro h hcon
      exact h ((hnn q).mpr hcon)
    · intro h hcon
      exact h ((hnn q).mp hcon)
  rw [uncollapsedCount, uncollapsedCount, hks]
  apply congrArg Finset.card
  apply Finset.filter_congr
  intro q _
  rw [hpt q]

theorem tileEquiv_isUncol {o o2 : Option Tile} (h : TileEquiv o o2) :
    isUncolO o = isUncolO o2 := by
  match o, h with
  | none, h => rw [tileEquiv_none_left h]
  | some (Tile.Collapsed v), h => rw [tileEquiv_col_left h]
  | some (Tile.Uncollapsed d), h =>
    obtain ⟨d2, he, _⟩ := tileEquiv_unc_left h
    rw [he]
    rfl

/-- Equivalent boards hold equally many domains. -/
theorem count_equiv {b b2 : Board} (h : StateEquiv b2 b) :
    uncollapsedCount b2 = uncollapsedCount b := by
  apply count_ext
  · intro q
    exact tileEquiv_isUncol (h q)
  · intro q
    constructor
    · intro hq
      have hh := h q
      rw [hq] at hh
      exact tileEquiv_none_left hh
    · intro hq
      have hh := h q
      rw [hq] at hh
      exact tileEquiv_none_right hh

/-- Collapsing an uncollapsed cell decreases the count by exactly one. -/
theorem count_reinsert_col {b : Board} {pos : Vec2} {d : Domain} (t : String)
    (hpos : bGet b pos = some (Tile.Uncollapsed d)) :
    uncollapsedCount b = uncollapsedCount (reinsert b pos (Tile.Collapsed t)) + 1 := by
  have hppos : pos ∈ (keySet b).filter fun q => isUncolO (bGet b q) = true :=
    Finset.mem_filter.mpr ⟨mem_keySet.mpr (by simp [hpos]), by rw [hpos]; rfl⟩
  have hSet : keySet (reinsert b pos (Tile.Collapsed t)) = keySet b := by
    apply Finset.ext
    intro q
    rw [mem_keySet, mem_keySet]
    by_cases hq : q = pos
    · rw [hq, bGet_reinsert_self]
      simp [hpos]
    · rw [bGet_reinsert_ne _ _ _ _ hq]
  have hfe : (keySet b).filter
        (fun q => isUncolO (bGet (reinsert b pos (Tile.Collapsed t)) q) = true) =
      ((keySet b).filter fun q => isUncolO (bGet b q) = true).erase pos := by
    apply Finset.ext
    intro q
    rw [Finset.mem_erase, Finset.mem_filter, Finset.mem_filter]
    by_cases hq : q = pos
    · rw [hq, bGet_reinsert_self]
      simp [isUncolO]
    · rw [bGet_reinsert_ne _ _ _ _ hq]
      simp [hq]
  rw [uncollapsedCount, uncollapsedCount, hSet, hfe, Finset.card_erase_of_mem hppos]
  have hcard : 0 < ((keySet b).filter fun q => isUncolO (bGet b q) = true).card :=
    Finset.card_pos.mpr ⟨pos, hppos⟩
  omega

/-- Propagation does not change which cells hold domains. -/
theorem propagate_count {r : AdjacencyMap} {b : Board} {pos : Vec2} {val : String}
    {bp : Board} {mods : List (Vec2 × String)}
    (hpos : bGet b pos = some (Tile.Collapsed val))
    (h : propagate_collapse r b pos = some (bp, mods)) :
    uncollapsedCount bp = uncollapsedCount b := by
  obtain ⟨Hfr, N1, N2, N3, N4⟩ := propagate_desc hpos h
  have key : ∀ (keep : String → Option Bool) (np : Vec2), nbrDesc keep b bp np →
      isUncolO (bGet bp np) = isUncolO (bGet b np) ∧ (bGet bp np = none ↔ bGet b np = none) := by
    intro keep np hN
    rcases hN with ⟨heq, _⟩ | ⟨dd, ks, hd, hk, _, _⟩
    · rw [heq]
      exact ⟨rfl, Iff.rfl⟩
    · rw [hd, hk]
      exact ⟨rfl, by simp⟩
  apply count_ext
  · intro q
    by_cases hq1 : q = (pos.1 - 1, pos.2)
    · rw [hq1]; exact (key _ _ N1).1
    · by_cases hq2 : q = (pos.1 + 1, pos.2)
      · rw [hq2]; exact (key _ _ N2).1
      · by_cases hq3 : q = (pos.1, pos.2 - 1)
        · rw [hq3]; exact (key _ _ N3).1
        · by_cases hq4 : q = (pos.1, pos.2 + 1)
          · rw [hq4]; exact (key _ _ N4).1
          · rw [Hfr q hq1 hq2 hq3 hq4]
  · intro q
    by_cases hq1 : q = (pos.1 - 1, pos.2)
    · rw [hq1]; exact (key _ _ N1).2
    · by_cases hq2 : q = (pos.1 + 1, pos.2)
      · rw [hq2]; exact (key _ _ N2).2
      · by_cases hq3 : q = (pos.1, pos.2 - 1)
        · rw [hq3]; exact (key _ _ N3).2
        · by_cases hq4 : q = (pos.1, pos.2 + 1)
          · rw [hq4]; exact (key _ _ N4).2
          · rw [Hfr q hq1 hq2 hq3 hq4]

/-- The candidate loop never exhausts the fuel if inner calls do not and
restore on failure. -/
theorem tryCands_fuel_gen {r : AdjacencyMap} {pos : Vec2} {f : Nat}
    {recCall : Board → List Nat → Except CErr (Board × Bool × List Nat)}
    (hrecNF : ∀ b s, uncollapsedCount b < f → recCall b s ≠ Except.error CErr.noFuel)
    (hrecFail : ∀ b s b' s', recCall b s = Except.ok (b', false, s') → StateEquiv b' b) :
    ∀ (cands : List String) (b : Board) (s : List Nat),
      uncollapsedCount b < f + 1 →
      tryCands r pos recCall cands b s ≠ Except.error CErr.noFuel := by
  intro cands
  induction cands with
  | nil =>
    intro b s _ heq
    rw [tryCands] at heq
    exact Except.noConfusion heq
  | cons t ts ih =>
    intro b s hcount
    match hivp : is_valid_placement r b t pos with
    | none =>
      rw [tryCands_cons_bad hivp]
      intro heq
      exact CErr.noConfusion (Except.error.inj heq)
    | some false =>
      rw [tryCands_cons_skip hivp]
      exact ih b s hcount
    | some true =>
      match hbp : bGet b pos with
      | none =>
        rw [tryCands_cons_nu hivp (by rw [hbp]; simp)]
        intro heq
        exact CErr.noConfusion (Except.error.inj heq)
      | some (Tile.Collapsed w) =>
        rw [tryCands_cons_nu hivp (by rw [hbp]; simp)]
        intro heq
        exact CErr.noConfusion (Except.error.inj heq)
      | some (Tile.Uncollapsed saved) =>
        match hprop : propagate_collapse r (reinsert b pos (Tile.Collapsed t)) pos with
        | none =>
          rw [tryCands_cons_perr hivp hbp hprop]
          intro heq
          exact CErr.noConfusion (Except.error.inj heq)
        | some prm =>
          rw [tryCands_cons_go hivp hbp hprop]
          have hc1 := count_reinsert_col t hbp
          have hc2 : uncollapsedCount prm.1 =
              uncollapsedCount (reinsert b pos (Tile.Collapsed t)) :=
            propagate_count (bGet_reinsert_self _ _ _) (by rw [hprop])
          have hcp : uncollapsedCount prm.1 < f := by omega
          match hrc : recCall prm.1 s with
          | Except.error e =>
            intro heq
            exact (hrecNF prm.1 s hcp) (by rw [hrc]; exact heq)
          | Except.ok (b3, true, s2) =>
            intro heq
            exact Except.noConfusion heq
          | Except.ok (b3, false, s2) =>
            have hb3 := hrecFail prm.1 s b3 s2 hrc
            have hb5 := branch_restore hbp hprop hb3
            have hcount5 : uncollapsedCount
                (reinsert (restore_domains b3 prm.2) pos (Tile.Uncollapsed saved)) < f + 1 := by
              rw [count_equiv hb5]
              exact hcount
            exact ih _ s2 hcount5

/-- With fuel exceeding the number of uncollapsed cells the embedded
collapse never runs out of fuel: the recursion is well-founded. -/
theorem collapse_fuel_core :
    ∀ (fuel : Nat) (r : AdjacencyMap) (b : Board) (s : List Nat),
      uncollapsedCount b < fuel → collapseF fuel r b s ≠ Except.error CErr.noFuel := by
  intro fuel
  induction fuel with
  | zero =>
    intro r b s hlt
    exact absurd hlt (Nat.not_lt_zero _)
  | succ f ih =>
    intro r b s hlt heq
    simp only [collapseF] at heq
    by_cases hc : is_collapsed b = true
    · simp [hc] at heq
    · simp only [hc, if_false, Bool.false_eq_true] at heq
      match hbp : bGet b (get_lowest_entropy b) with
      | none =>
        rw [hbp] at heq
        exact CErr.noConfusion (Except.error.inj heq)
      | some (Tile.Collapsed w) =>
        rw [hbp] at heq
        exact CErr.noConfusion (Except.error.inj heq)
      | some (Tile.Uncollapsed d) =>
        rw [hbp] at heq
        exact tryCands_fuel_gen (fun bb ss hb => ih r bb ss hb)
          (fun bb ss bb' ss' hh => collapse_fail_core f r bb ss bb' ss' hh)
          (selShuffle s d).1 b (selShuffle s d).2 hlt heq

/-- Every domain of the board is free of duplicates. -/
def nodupDomains (b : Board) : Prop :=
  ∀ (p : Vec2) (d : Domain), bGet b p = some (Tile.Uncollapsed d) → d.Nodup

/-- nodupDomains transfers across state equivalence. -/
theorem nodup_equiv {b b2 : Board} (h : StateEquiv b2 b) (hn : nodupDomains b) :
    nodupDomains b2 := by
  intro p d hU
  have hb := h p
  rw [hU] at hb
  obtain ⟨d2, hd2, hperm⟩ := tileEquiv_unc_left hb
  exact hperm.nodup_iff.mpr (hn p d2 hd2)

/-- Replacing a cell by a collapsed tile preserves domain nodup. -/
theorem nodup_reinsert_col {b : Board} {pos : Vec2} {t : String} (hn : nodupDomains b) :
    nodupDomains (reinsert b pos (Tile.Collapsed t)) := by
  intro p d hU
  by_cases hq : p = pos
  · rw [hq, bGet_reinsert_self] at hU
    exact Tile.noConfusion (Option.some.inj hU)
  · rw [bGet_reinsert_ne _ _ _ _ hq] at hU
    exact hn p d hU

/-- Reinstating a saved nodup domain preserves domain nodup. -/
theorem nodup_reinsert_unc {b : Board} {pos : Vec2} {d0 : Domain} (hn : nodupDomains b)
    (hd0 : d0.Nodup) : nodupDomains (reinsert b pos (Tile.Uncollapsed d0)) := by
  intro p d hU
  by_cases hq : p = pos
  · rw [hq, bGet_reinsert_self] at hU
    rw [← Tile.Uncollapsed.inj (Option.some.inj hU)]
    exact hd0
  · rw [bGet_reinsert_ne _ _ _ _ hq] at hU
    exact hn p d hU

/-- Propagation preserves domain nodup. -/
theorem propagate_nodup {r : AdjacencyMap} {b : Board} {pos : Vec2} {val : String}
    {bp : Board} {mods : List (Vec2 × String)}
    (hpos : bGet b pos = some (Tile.Collapsed val))
    (h : propagate_collapse r b pos = some (bp, mods)) (hn : nodupDomains b) :
    nodupDomains bp := by
  obtain ⟨Hfr, N1, N2, N3, N4⟩ := propagate_desc hpos h
  have key : ∀ (keep : String → Option Bool) (np : Vec2), nbrDesc keep b bp np →
      ∀ d, bGet bp np = some (Tile.Uncollapsed d) → d.Nodup := by
    intro keep np hN d hU
    rcases hN with ⟨heq, _⟩ | ⟨dd, ks, hd, hk, _, rs2, hperm⟩
    · rw [heq] at hU
      exact hn np d hU
    · rw [hk] at hU
      rw [← Tile.Uncollapsed.inj (Option.some.inj hU)]
    
      exact List.Nodup.of_append_left (hperm.nodup_iff.mpr (hn np dd hd))
  intro p d hU
  by_cases hq1 : p = (pos.1 - 1, pos.2)
  · rw [hq1] at hU; exact key _ _ N1 d hU
  · by_cases hq2 : p = (pos.1 + 1, pos.2)
    · rw [hq2] at hU; exact key _ _ N2 d hU
    · by_cases hq3 : p = (pos.1, pos.2 - 1)
      · rw [hq3] at hU; exact key _ _ N3 d hU
      · by_cases hq4 : p = (pos.1, pos.2 + 1)
        · rw [hq4] at hU; exact key _ _ N4 d hU
        · rw [Hfr p hq1 hq2 hq3 hq4] at hU
          exact hn p d hU

/-- The candidate loop preserves domain nodup, given inner calls do and
restore on failure. -/
theorem tryCands_nodup_gen {r : AdjacencyMap} {pos : Vec2}
    {recCall : Board → List Nat → Except CErr (Board × Bool × List Nat)}
    (hrecFail : ∀ b s b' s', recCall b s = Except.ok (b', false, s') → StateEquiv b' b)
    (hrecN : ∀ b s b' res s', nodupDomains b → recCall b s = Except.ok (b', res, s') →
      nodupDomains b') :
    ∀ (cands : List String) (b : Board) (s : List Nat) (b' : Board) (res : Bool)
      (s' : List Nat), nodupDomains b →
      tryCands r pos recCall cands b s = Except.ok (b', res, s') → nodupDomains b' := by
  intro cands
  induction cands with
  | nil =>
    intro b s b' res s' hn h
    rw [tryCands] at h
    simp at h
    obtain ⟨h1, _, _⟩ := h
    rw [← h1]
    exact hn
  | cons t ts ih =>
    intro b s b' res s' hn h
    match hivp : is_valid_placement r b t pos with
    | none =>
      rw [tryCands_cons_bad hivp] at h
      exact Except.noConfusion h
    | some false =>
      rw [tryCands_cons_skip hivp] at h
      exact ih b s b' res s' hn h
    | some true =>
      match hbp : bGet b pos with
      | none =>
        rw [tryCands_cons_nu hivp (by rw [hbp]; simp)] at h
        exact Except.noConfusion h
      | some (Tile.Collapsed w) =>
        rw [tryCands_cons_nu hivp (by rw [hbp]; simp)] at h
        exact Except.noConfusion h
      | some (Tile.Uncollapsed saved) =>
        match hprop : propagate_collapse r (reinsert b pos (Tile.Collapsed t)) pos with
        | none =>
          rw [tryCands_cons_perr hivp hbp hprop] at h
          exact Except.noConfusion h
        | some prm =>
          rw [tryCands_cons_go hivp hbp hprop] at h
          have hn2 : nodupDomains prm.1 :=
            propagate_nodup (bGet_reinsert_self _ _ _) (by rw [hprop])
              (nodup_reinsert_col hn)
          match hrc : recCall prm.1 s with
          | Except.error e =>
            rw [hrc] at h
            exact Except.noConfusion h
          | Except.ok (b3, true, s2) =>
            rw [hrc] at h
            simp at h
            obtain ⟨h1, _, _⟩ := h
            rw [← h1]
            exact hrecN prm.1 s b3 true s2 hn2 hrc
          | Except.ok (b3, false, s2) =>
            rw [hrc] at h
            have hb3 := hrecFail prm.1 s b3 s2 hrc
            have hb5 := branch_restore hbp hprop hb3
            exact ih _ s2 b' res s' (nodup_equiv hb5 hn) h

/-- The embedded collapse preserves domain nodup. -/
theorem collapse_nodup_core :
    ∀ (fuel : Nat) (r : AdjacencyMap) (b : Board) (s : List Nat) (b' : Board) (res : Bool)
      (s' : List Nat), nodupDomains b → collapseF fuel r b s = Except.ok (b', res, s') →
      nodupDomains b' := by
  intro fuel
  induction fuel with
  | zero =>
    intro r b s b' res s' _ h
    exact Except.noConfusion h
  | succ f ih =>
    intro r b s b' res s' hn h
    simp only [collapseF] at h
    by_cases hc : is_collapsed b = true
    · simp [hc] at h
      obtain ⟨h1, _, _⟩ := h
      rw [← h1]
      exact hn
    · simp only [hc, if_false, Bool.false_eq_true] at h
      match hbp : bGet b (get_lowest_entropy b) with
      | none =>
        rw [hbp] at h
        exact Except.noConfusion h
      | some (Tile.Collapsed w) =>
        rw [hbp] at h
        exact Except.noConfusion h
      | some (Tile.Uncollapsed d) =>
        rw [hbp] at h
        exact tryCands_nodup_gen
          (fun bb ss bb' ss' hh => collapse_fail_core f r bb ss bb' ss' hh)
          (fun bb ss bb' rr ss' hnn hh => ih r bb ss bb' rr ss' hnn hh)
          (selShuffle s d).1 b (selShuffle s d).2 b' res s' hn h

/-- Every cell of a fresh board holds the full uncollapsed domain. -/
theorem create_mem {r : AdjacencyMap} {n : Nat} :
    ∀ e ∈ create r n, e.2 = Tile.Uncollapsed (r.map fun x => x.1) := by
  intro e he
  rw [create, List.mem_flatMap] at he
  obtain ⟨row, _, hrow⟩ := he
  rw [List.mem_map] at hrow
  obtain ⟨col, _, hcol⟩ := hrow
  rw [← hcol]
  rfl

/-- Lookups on a fresh board only ever see the full uncollapsed domain. -/
theorem bGet_create_unc {r : AdjacencyMap} {n : Nat} {p : Vec2} {tile : Tile}
    (h : bGet (create r n) p = some tile) :
    tile = Tile.Uncollapsed (r.map fun x => x.1) := by
  obtain ⟨e, hfind, he⟩ := Option.map_eq_some'.mp h
  rw [← he]
  exact create_mem e (List.mem_of_find?_eq_some hfind)

/-- A fresh board has no collapsed pair to violate. -/
theorem create_pairsOK (r : AdjacencyMap) (n : Nat) : pairsOK r (create r n) := by
  intro p v w hv
  exact absurd (bGet_create_unc hv) (by simp)

/-- A fresh board has no collapsed neighbour to constrain a domain. -/
theorem create_domOK (r : AdjacencyMap) (n : Nat) : domOK r (create r n) := by
  intro p d hU e _
  refine ⟨?_, ?_, ?_, ?_⟩ <;> (intro v hv; exact absurd (bGet_create_unc hv) (by simp))

/-- A fresh board's domains are duplicate-free when the rule table's keys
are. -/
theorem create_nodup {r : AdjacencyMap} (n : Nat) (hr : (r.map fun x => x.1).Nodup) :
    nodupDomains (create r n) := by
  intro p d hU
  have := bGet_create_unc hU
  rw [show d = r.map fun x => x.1 from Tile.Uncollapsed.inj this]
  exact hr

/-- Modelled from the spec: lowestEntropyPosition "scans all cells in a
fixed deterministic order and returns the position of the Uncollapsed cell
with the smallest domain size; ties broken by first-encountered in scan
order" — with the scan order being the map iteration order of the
embedding. -/
def specFirstMin : List (Vec2 × Tile) → Option (Vec2 × Nat)
  | [] => none
  | e :: rest =>
    match e.2 with
    | Tile.Collapsed _ => specFirstMin rest
    | Tile.Uncollapsed d =>
      match specFirstMin rest with
      | none => some (e.1, d.length)
      | some qm => if d.length ≤ qm.2 then some (e.1, d.length) else some qm

/-- The variant of the scan the code actually performs: smallest domain
size with ties broken by the last cell encountered in scan order. -/
def specLastMin : List (Vec2 × Tile) → Option (Vec2 × Nat)
  | [] => none
  | e :: rest =>
    match e.2 with
    | Tile.Collapsed _ => specLastMin rest
    | Tile.Uncollapsed d =>
      match specLastMin rest with
      | none => some (e.1, d.length)
      | some qm => if qm.2 ≤ d.length then some qm else some (e.1, d.length)

theorem leLow_mono {a b : Nat} {low : Option Nat} (h : b ≤ a) (ha : leLow a low = true) :
    leLow b low = true := by
  match low with
  | none => rfl
  | some m =>
    simp [leLow] at ha ⊢
    omega

theorem gle_fold_cons_col {e : Vec2 × Tile} {rest : List (Vec2 × Tile)} {v : String}
    (he : e.2 = Tile.Collapsed v) (low : Option Nat) (idx : Vec2) :
    gle_fold (e :: rest) low idx = gle_fold rest low idx := by
  rw [gle_fold, he]

theorem gle_fold_cons_unc {e : Vec2 × Tile} {rest : List (Vec2 × Tile)} {d : Domain}
    (he : e.2 = Tile.Uncollapsed d) (low : Option Nat) (idx : Vec2) :
    gle_fold (e :: rest) low idx =
      if leLow d.length low then gle_fold rest (some d.length) e.1
      else gle_fold rest low idx := by
  rw [gle_fold, he]

theorem specLastMin_cons_col {e : Vec2 × Tile} {rest : List (Vec2 × Tile)} {v : String}
    (he : e.2 = Tile.Collapsed v) : specLastMin (e :: rest) = specLastMin rest := by
  rw [specLastMin, he]

theorem specLastMin_cons_unc {e : Vec2 × Tile} {rest : List (Vec2 × Tile)} {d : Domain}
    (he : e.2 = Tile.Uncollapsed d) :
    specLastMin (e :: rest) =
      match specLastMin rest with
      | none => some (e.1, d.length)
      | some qm => if qm.2 ≤ d.length then some qm else some (e.1, d.length) := by
  rw [specLastMin, he]

/-- The scan loop returns the last minimal uncollapsed cell, or the
accumulator if none beats it. -/
theorem gle_fold_spec :
    ∀ (l : List (Vec2 × Tile)) (low : Option Nat) (idx : Vec2),
      gle_fold l low idx =
        match specLastMin l with
        | none => idx
        | some qm => if leLow qm.2 low then qm.1 else idx := by
  intro l
  induction l with
  | nil =>
    intro low idx
    rfl
  | cons e rest ih =>
    intro low idx
    match he : e.2 with
    | Tile.Collapsed v =>
      rw [gle_fold_cons_col he, specLastMin_cons_col he]
      exact ih low idx
    | Tile.Uncollapsed d =>
      rw [gle_fold_cons_unc he, specLastMin_cons_unc he]
      match hrest : specLastMin rest with
      | none =>
        rw [ih low idx, ih (some d.length) e.1, hrest]
      | some qm =>
        rw [ih low idx, ih (some d.length) e.1, hrest]
        by_cases hmd : qm.2 ≤ d.length
        · have h1 : leLow qm.2 (some d.length) = true := by simp [leLow, hmd]
          by_cases hdl : leLow d.length low = true
          · have h2 := leLow_mono hmd hdl
            simp [hmd, hdl, h1, h2]
          · simp [hmd, hdl]
        · have h1 : leLow qm.2 (some d.length) = false := by
            simp [leLow]
            omega
          by_cases hdl : leLow d.length low = true
          · simp [hmd, hdl, h1]
          · have h2 : leLow qm.2 low = false := by
              match low, hdl with
              | none, hdl => exact absurd rfl hdl
              | some mm, hdl =>
                simp [leLow] at hdl ⊢
                omega
            simp [hmd, hdl, h2]

/-- get_lowest_entropy returns the last minimal uncollapsed position. -/
theorem gle_spec {b : Board} {q : Vec2} {m : Nat} (h : specLastMin b = some (q, m)) :
    get_lowest_entropy b = q := by
  rw [get_lowest_entropy, gle_fold_spec, h]
  rfl

/-- Any uncollapsed entry gives the scan something to return. -/
theorem specLastMin_some :
    ∀ (l : List (Vec2 × Tile)) (e : Vec2 × Tile), e ∈ l → isUncolT e.2 = true →
      ∃ q m, specLastMin l = some (q, m) := by
  intro l
  induction l with
  | nil =>
    intro e he _
    exact absurd he (List.not_mem_nil e)
  | cons x rest ih =>
    intro e he hu
    rcases List.mem_cons.mp he with he | he
    · match hx : x.2 with
      | Tile.Collapsed v =>
        rw [he, hx] at hu
        simp [isUncolT] at hu
      | Tile.Uncollapsed d =>
        rw [specLastMin_cons_unc hx]
        match hrest : specLastMin rest with
        | none => exact ⟨x.1, d.length, rfl⟩
        | some qm =>
          by_cases hc : qm.2 ≤ d.length
          · exact ⟨qm.1, qm.2, by simp [hc]⟩
          · exact ⟨x.1, d.length, by simp [hc]⟩
    · obtain ⟨q, m, hqm⟩ := ih e he hu
      match hx : x.2 with
      | Tile.Collapsed v =>
        rw [specLastMin_cons_col hx]
        exact ⟨q, m, hqm⟩
      | Tile.Uncollapsed d =>
        rw [specLastMin_cons_unc hx, hqm]
        by_cases hc : m ≤ d.length
        · exact ⟨q, m, by simp [hc]⟩
        · exact ⟨x.1, d.length, by simp [hc]⟩

/-- The four cardinal directions, named as the code's print orientation and
its commented-out direction table name them: the first coordinate grows
rightward, the second upward. -/
inductive Dir where
  | right
  | left
  | above
  | below
deriving DecidableEq

/-- The rule-table label of a direction. -/
def dirLabel : Dir → String
  | Dir.right => dRight
  | Dir.left => dLeft
  | Dir.above => dAbove
  | Dir.below => dBelow

/-- The coordinate offset of a direction. -/
def dirOffset : Dir → Vec2
  | Dir.right => (1, 0)
  | Dir.left => (-1, 0)
  | Dir.above => (0, 1)
  | Dir.below => (0, -1)

/-- The opposite direction. -/
def mirrorDir : Dir → Dir
  | Dir.right => Dir.left
  | Dir.left => Dir.right
  | Dir.above => Dir.below
  | Dir.below => Dir.above

/-- Componentwise vector addition on positions. -/
def vadd (p q : Vec2) : Vec2 :=
  (p.1 + q.1, p.2 + q.2)

/-- The order in which is_valid_placement visits the neighbours, as
directions of the offset from the checked cell to the neighbour. -/
def checkOrder : List Dir :=
  [Dir.left, Dir.right, Dir.below, Dir.above]

/-- Modelled from the spec: the generic shape of the adjacency check — for
each direction, examine the neighbour at that offset and consult its rule
entry under the label labelF assigns to that direction. -/
def genCheckGo (r : AdjacencyMap) (b : Board) (v : String) (pos : Vec2)
    (labelF : Dir → String) : List Dir → Option Bool
  | [] => some true
  | dd :: rest =>
    match ivpStep r (labelF dd) (vadd pos (dirOffset dd)) b v with
    | none => none
    | some false => some false
    | some true => genCheckGo r b v pos labelF rest

/-- The check the specification sentence describes: the neighbour's rule
entry is consulted under the same direction label as the offset from the
checked cell to the neighbour. -/
def sameLabelCheck (r : AdjacencyMap) (b : Board) (v : String) (pos : Vec2) : Option Bool :=
  genCheckGo r b v pos (fun dd => dirLabel dd) checkOrder

/-- The mirrored-label check: the neighbour's rule entry is consulted under
the direction label of the offset from the neighbour back to the checked
cell. -/
def mirrorLabelCheck (r : AdjacencyMap) (b : Board) (v : String) (pos : Vec2) : Option Bool :=
  genCheckGo r b v pos (fun dd => dirLabel (mirrorDir dd)) checkOrder

/-- is_valid_placement consults each collapsed neighbour under the mirrored
direction label. -/
theorem ivp_eq_mirror (r : AdjacencyMap) (b : Board) (v : String) (pos : Vec2) :
    is_valid_placement r b v pos = mirrorLabelCheck r b v pos := by
  have e1 : vadd pos ((-1 : Int), (0 : Int)) = (pos.1 - 1, pos.2) := by
    rw [vadd, Prod.mk.injEq]
    constructor <;> omega
  have e2 : vadd pos ((1 : Int), (0 : Int)) = (pos.1 + 1, pos.2) := by
    rw [vadd, Prod.mk.injEq]
    constructor <;> omega
  have e3 : vadd pos ((0 : Int), (-1 : Int)) = (pos.1, pos.2 - 1) := by
    rw [vadd, Prod.mk.injEq]
    constructor <;> omega
  have e4 : vadd pos ((0 : Int), (1 : Int)) = (pos.1, pos.2 + 1) := by
    rw [vadd, Prod.mk.injEq]
    constructor <;> omega
  rw [mirrorLabelCheck, checkOrder]
  simp only [genCheckGo, mirrorDir, dirLabel, dirOffset]
  rw [e1, e2, e3, e4]
  rw [is_valid_placement]

/-- Decidable equality of collapse results, for concrete witnesses. -/
instance {ε α : Type} [DecidableEq ε] [DecidableEq α] : DecidableEq (Except ε α) :=
  fun a b =>
    match a, b with
    | Except.ok x, Except.ok y =>
      if h : x = y then isTrue (by rw [h]) else
        isFalse fun hc => h (Except.ok.inj hc)
    | Except.error e, Except.error f =>
      if h : e = f then isTrue (by rw [h]) else
        isFalse fun hc => h (Except.error.inj hc)
    | Except.ok _, Except.error _ => isFalse fun hc => Except.noConfusion hc
    | Except.error _, Except.ok _ => isFalse fun hc => Except.noConfusion hc

/-- Display glyph used by the concrete example rule tables. -/
def gX : String := "x"

/-- Tile identifier "a". -/
def tA : String := "a"

/-- Tile identifier "b". -/
def tB : String := "b"

/-- One tile allowing itself in every direction. -/
def rOne : AdjacencyMap :=
  [(tA, BoardCharacter.mk gX [(dRight, [tA]), (dLeft, [tA]), (dAbove, [tA]), (dBelow, [tA])])]

/-- One tile allowing nothing in any direction. -/
def rEmpty : AdjacencyMap :=
  [(tA, BoardCharacter.mk gX [(dRight, []), (dLeft, []), (dAbove, []), (dBelow, [])])]

/-- Two tiles allowing everything in every direction. -/
def rTwo : AdjacencyMap :=
  [(tA, BoardCharacter.mk gX
      [(dRight, [tA, tB]), (dLeft, [tA, tB]), (dAbove, [tA, tB]), (dBelow, [tA, tB])]),
   (tB, BoardCharacter.mk gX
      [(dRight, [tA, tB]), (dLeft, [tA, tB]), (dAbove, [tA, tB]), (dBelow, [tA, tB])])]

/-- Tile a allows a everywhere; tile b allows nothing. -/
def rC2 : AdjacencyMap :=
  [(tA, BoardCharacter.mk gX [(dRight, [tA]), (dLeft, [tA]), (dAbove, [tA]), (dBelow, [tA])]),
   (tB, BoardCharacter.mk gX [(dRight, []), (dLeft, []), (dAbove, []), (dBelow, [])])]

/-- A collapsed cell with an uncollapsed right-hand neighbour. -/
def bC2 : Board :=
  [(((0 : Int), (0 : Int)), Tile.Collapsed tA),
   (((1 : Int), (0 : Int)), Tile.Uncollapsed [tA, tB])]

/-- Two adjacent singleton-domain cells under the empty rule table: every
collapse attempt fails. -/
def bFail : Board :=
  [(((0 : Int), (0 : Int)), Tile.Uncollapsed [tA]),
   (((1 : Int), (0 : Int)), Tile.Uncollapsed [tA])]

/-- Tile a lists b as its right neighbour only. -/
def rC5 : AdjacencyMap :=
  [(tA, BoardCharacter.mk gX [(dRight, [tB]), (dLeft, []), (dAbove, []), (dBelow, [])]),
   (tB, BoardCharacter.mk gX [(dRight, []), (dLeft, []), (dAbove, []), (dBelow, [])])]

/-- Tile a collapsed to the left of the cell where b is being placed. -/
def bC5 : Board :=
  [(((0 : Int), (0 : Int)), Tile.Collapsed tA),
   (((1 : Int), (0 : Int)), Tile.Uncollapsed [tB])]

/-- Two uncollapsed cells with equal (minimal) domain sizes. -/
def bC6 : Board :=
  [(((0 : Int), (0 : Int)), Tile.Uncollapsed [tA]),
   (((1 : Int), (1 : Int)), Tile.Uncollapsed [tB])]

/-- C1: if the top-level collapse call on a freshly created grid returns
success, every cell of the resulting grid is collapsed and every pair of
4-adjacent cells satisfies the adjacency rule in both of the directional
lookups that is_valid_placement performs for that pair. -/
theorem claim_C1 (r : AdjacencyMap) (n fuel : Nat) (s : List Nat) (b' : Board)
    (s' : List Nat) (h : collapseF fuel r (create r n) s = Except.ok (b', true, s')) :
    (∀ (p : Vec2) (tile : Tile), bGet b' p = some tile → ∃ v, tile = Tile.Collapsed v) ∧
    pairsOK r b' := by
  obtain ⟨⟨hp, _⟩, hcol⟩ := collapse_true_core fuel r (create r n) s b' s'
    (create_pairsOK r n) (create_domOK r n) h
  exact ⟨is_collapsed_spec hcol, hp⟩

/-- Witness for C1 on the single-tile 1-by-1 instance. -/
theorem claim_C1_witness :
    (∀ (p : Vec2) (tile : Tile),
      bGet [(((0 : Int), (0 : Int)), Tile.Collapsed tA)] p = some tile →
        ∃ v, tile = Tile.Collapsed v) ∧
    pairsOK rOne [(((0 : Int), (0 : Int)), Tile.Collapsed tA)] :=
  claim_C1 rOne 1 2 [] [(((0 : Int), (0 : Int)), Tile.Collapsed tA)] [] (by decide)

/-- C2: restoring exactly the modification list returned by a propagation
from a collapsed cell leaves every cell membership-equal to its state
before the propagation. -/
theorem claim_C2 (r : AdjacencyMap) (b : Board) (pos : Vec2) (v : String) (b2 : Board)
    (mods : List (Vec2 × String)) (hpos : bGet b pos = some (Tile.Collapsed v))
    (h : propagate_collapse r b pos = some (b2, mods)) :
    StateMemEquiv (restore_domains b2 mods) b :=
  stateMemEquiv_of_stateEquiv (prop_restore_core hpos h)

/-- Witness for C2 on a two-cell board where propagation removes b. -/
theorem claim_C2_witness :
    StateMemEquiv
      (restore_domains
        [(((0 : Int), (0 : Int)), Tile.Collapsed tA),
         (((1 : Int), (0 : Int)), Tile.Uncollapsed [tA])]
        [(((1 : Int), (0 : Int)), tB)]) bC2 :=
  claim_C2 rC2 bC2 ((0 : Int), (0 : Int)) tA
    [(((0 : Int), (0 : Int)), Tile.Collapsed tA),
     (((1 : Int), (0 : Int)), Tile.Uncollapsed [tA])]
    [(((1 : Int), (0 : Int)), tB)] (by decide) (by decide)

/-- C3: when a collapse call returns failure the grid is left in the same
logical state it began in: collapsed cells keep their values, uncollapsed
cells stay uncollapsed, and every domain is membership-equal. -/
theorem claim_C3 (r : AdjacencyMap) (fuel : Nat) (b : Board) (s : List Nat) (b' : Board)
    (s' : List Nat) (h : collapseF fuel r b s = Except.ok (b', false, s')) :
    StateMemEquiv b' b :=
  stateMemEquiv_of_stateEquiv (collapse_fail_core fuel r b s b' s' h)

/-- Witness for C3 on a two-cell unsatisfiable instance. -/
theorem claim_C3_witness :
    StateMemEquiv
      [(((0 : Int), (0 : Int)), Tile.Uncollapsed [tA]),
       (((1 : Int), (0 : Int)), Tile.Uncollapsed [tA])] bFail :=
  claim_C3 rEmpty 3 bFail []
    [(((0 : Int), (0 : Int)), Tile.Uncollapsed [tA]),
     (((1 : Int), (0 : Int)), Tile.Uncollapsed [tA])] [] (by decide)

/-- C4: the recursion of collapse is well-founded — with fuel exceeding the
number of uncollapsed cells the embedded collapse never exhausts its fuel,
because every recursive invocation happens only after the number of
uncollapsed cells has strictly decreased. -/
theorem claim_C4 (fuel : Nat) (r : AdjacencyMap) (b : Board) (s : List Nat)
    (h : uncollapsedCount b < fuel) :
    collapseF fuel r b s ≠ Except.error CErr.noFuel :=
  collapse_fuel_core fuel r b s h

/-- Witness for C4 on the two-cell unsatisfiable instance. -/
theorem claim_C4_witness :
    collapseF 3 rEmpty bFail [] ≠ Except.error CErr.noFuel :=
  claim_C4 3 rEmpty bFail [] (by decide)

/-- C5 counterexample: with a listing b only as its right neighbour,
placing b with a collapsed to its left succeeds under the code's check,
while the same-direction-label check of the claim rejects it: the code
consults the mirrored label, not the same label as the offset from the
placed cell to the neighbour. -/
theorem claim_C5_counterexample :
    is_valid_placement rC5 bC5 tB ((1 : Int), (0 : Int)) = some true ∧
    sameLabelCheck rC5 bC5 tB ((1 : Int), (0 : Int)) = some false := by
  constructor <;> decide

/-- C5 amended: when the adjacency check examines a collapsed neighbour of
p lying in a given direction, it looks up that neighbour's rule entry under
the MIRRORED direction label — the label of the offset from the neighbour
back to p — and requires that list to contain the candidate. -/
theorem claim_C5_amended (r : AdjacencyMap) (b : Board) (v : String) (pos : Vec2) :
    is_valid_placement r b v pos = mirrorLabelCheck r b v pos :=
  ivp_eq_mirror r b v pos

/-- C6 counterexample: on a board with two minimal uncollapsed cells the
scan returns the last one, not the first-encountered one the claim
requires. -/
theorem claim_C6_counterexample :
    specFirstMin bC6 = some (((0 : Int), (0 : Int)), 1) ∧
    get_lowest_entropy bC6 = ((1 : Int), (1 : Int)) ∧
    (((1 : Int), (1 : Int)) : Vec2) ≠ ((0 : Int), (0 : Int)) := by
  refine ⟨by decide, by decide, by decide⟩

/-- C6 amended: on a grid with at least one uncollapsed cell,
get_lowest_entropy scans the cells in the map's iteration order and returns
the position of an uncollapsed cell of minimal domain size, ties broken in
favour of the LAST such cell encountered in the scan order. -/
theorem claim_C6_amended (b : Board) (h : ∃ e ∈ b, isUncolT e.2 = true) :
    ∃ q m, specLastMin b = some (q, m) ∧ get_lowest_entropy b = q := by
  obtain ⟨e, he, hu⟩ := h
  obtain ⟨q, m, hqm⟩ := specLastMin_some b e he hu
  exact ⟨q, m, hqm, gle_spec hqm⟩

/-- Witness for the amended C6 on the two-cell board. -/
theorem claim_C6_witness :
    ∃ q m, specLastMin bC6 = some (q, m) ∧ get_lowest_entropy bC6 = q :=
  claim_C6_amended bC6 (by decide)

/-- C7: is_valid_placement returns true exactly when, for each of the four
directional offsets, the neighbour at that offset is absent, uncollapsed,
or collapsed to a value whose rule entry's list for the consulted direction
label contains the candidate; absent and uncollapsed neighbours impose no
constraint and any single violation makes the result differ from true. -/
theorem claim_C7 (r : AdjacencyMap) (b : Board) (v : String) (pos : Vec2) :
    is_valid_placement r b v pos = some true ↔
      (nbrOK r b v (pos.1 - 1, pos.2) dRight ∧ nbrOK r b v (pos.1 + 1, pos.2) dLeft ∧
       nbrOK r b v (pos.1, pos.2 - 1) dAbove ∧ nbrOK r b v (pos.1, pos.2 + 1) dBelow) :=
  ivp_true_iff

/-- C8 counterexample: the permutation step draws from the thread-local
RNG, which the embedding makes explicit as the injected stream; there is no
seed parameter, and two runs with identical rules and grid size but
different consumed streams produce different output grids, so the output is
not a function of rules, size and an injectable seed. -/
theorem claim_C8_counterexample :
    collapseF 2 rTwo (create rTwo 1) [0] =
      Except.ok ([(((0 : Int), (0 : Int)), Tile.Collapsed tA)], true, []) ∧
    collapseF 2 rTwo (create rTwo 1) [1] =
      Except.ok ([(((0 : Int), (0 : Int)), Tile.Collapsed tB)], true, []) ∧
    tA ≠ tB := by
  refine ⟨by decide, by decide, by decide⟩

/-- C8 amended: the solver is a deterministic function of the rules, the
grid size and the consumed random stream: runs with equal streams produce
equal results. -/
theorem claim_C8_amended (r : AdjacencyMap) (n fuel : Nat) (s1 s2 : List Nat)
    (h : s1 = s2) :
    collapseF fuel r (create r n) s1 = collapseF fuel r (create r n) s2 := by
  rw [h]

/-- Witness for the amended C8. -/
theorem claim_C8_witness :
    collapseF 2 rTwo (create rTwo 1) [0] = collapseF 2 rTwo (create rTwo 1) [0] :=
  claim_C8_amended rTwo 1 2 [0] [0] rfl

/-- C9: a fresh board's domains are duplicate-free when the rule table's
keys are, a successful propagation from a collapsed cell preserves
duplicate-freedom, and every successful collapse run preserves it. -/
theorem claim_C9 :
    (∀ (r : AdjacencyMap) (n : Nat), (r.map fun x => x.1).Nodup →
      nodupDomains (create r n)) ∧
    (∀ (r : AdjacencyMap) (b : Board) (pos : Vec2) (b2 : Board)
      (mods : List (Vec2 × String)) (v : String), nodupDomains b →
      bGet b pos = some (Tile.Collapsed v) →
      propagate_collapse r b pos = some (b2, mods) → nodupDomains b2) ∧
    (∀ (fuel : Nat) (r : AdjacencyMap) (b : Board) (s : List Nat) (b' : Board)
      (res : Bool) (s' : List Nat), nodupDomains b →
      collapseF fuel r b s = Except.ok (b', res, s') → nodupDomains b') :=
  ⟨fun r n hr => @create_nodup r n hr,
   fun _ _ _ _ _ _ hn hpos hprop => propagate_nodup hpos hprop hn,
   fun fuel r b s b' res s' hn h => collapse_nodup_core fuel r b s b' res s' hn h⟩

/-- Witness for C9 on the single-tile instance and its collapse run. -/
theorem claim_C9_witness :
    nodupDomains (create rOne 1) ∧
    nodupDomains [(((0 : Int), (0 : Int)), Tile.Collapsed tA)] :=
  ⟨claim_C9.1 rOne 1 (by decide),
   claim_C9.2.2 2 rOne (create rOne 1) [] [(((0 : Int), (0 : Int)), Tile.Collapsed tA)]
     true [] (claim_C9.1 rOne 1 (by decide)) (by decide)⟩

/-- C10 counterexample: on a position absent from the map,
propagate_collapse panics (the unwrap on self.get(pos)) instead of
returning an empty modification list. -/
theorem claim_C10_counterexample :
    propagate_collapse rOne ([] : Board) ((0 : Int), (0 : Int)) = none := by
  decide

/-- C10 amended: on an uncollapsed cell propagate_collapse returns an empty
modification list and leaves the grid unchanged; on an absent position the
call fails (models the unwrap panic). -/
theorem claim_C10_amended (r : AdjacencyMap) (b : Board) (pos : Vec2) :
    (∀ d, bGet b pos = some (Tile.Uncollapsed d) →
      propagate_collapse r b pos = some (b, [])) ∧
    (bGet b pos = none → propagate_collapse r b pos = none) := by
  constructor
  · intro d hd
    rw [propagate_collapse, hd]
  · intro hd
    rw [propagate_collapse, hd]

/-- Witness for the amended C10. -/
theorem claim_C10_witness :
    propagate_collapse rOne [(((0 : Int), (0 : Int)), Tile.Uncollapsed [tA])]
      ((0 : Int), (0 : Int)) =
      some ([(((0 : Int), (0 : Int)), Tile.Uncollapsed [tA])], []) ∧
    propagate_collapse rOne ([] : Board) ((1 : Int), (1 : Int)) = none :=
  ⟨(claim_C10_amended rOne _ _).1 [tA] (by decide),
   (claim_C10_amended rOne _ _).2 (by decide)⟩
